import Mathlib

/-!
Verification of the business-hours calculus of `src/lib/business.ts` and its
HTTP orchestration in `src/index.ts`.

Modelling conventions:
* A `Business Instant` is the number of milliseconds since the Unix epoch of
  its wall-clock reading in the business timezone (America/Bogota, a fixed
  UTC-5 offset with no daylight saving), represented as an `Int`.
  Converting to UTC adds `utcOffsetMs`; Luxon's `plus({days})`,
  `plus({minutes})` and `set({hour,...})` act linearly on this encoding.
* A holiday set is a `Finset ℤ` of calendar-day numbers (days since
  1970-01-01); the `YYYY-MM-DD` string of the source is in bijection with the
  day number, and equality of the strings is equality of the numbers.
* JavaScript `number` arithmetic of the hour accumulator is embedded as exact
  rational arithmetic (`ℚ`); `Math.round` is `fun q => ⌊q + 1/2⌋`.
* The source's `while` loops are embedded as fuel-indexed recursions
  returning `Option`; canonical fuel values are supplied by wrappers and
  proved sufficient.
-/

/-- Milliseconds in one calendar day. -/
def msPerDay : ℤ := 86400000

/-- UTC = Bogota wall time + 5 hours (America/Bogota is fixed UTC-5). -/
def utcOffsetMs : ℤ := 18000000

/-- Calendar-day number (days since 1970-01-01) of an instant. -/
def dayOf (t : ℤ) : ℤ := t / 86400000

/-- Milliseconds elapsed since local midnight. -/
def msOfDay (t : ℤ) : ℤ := t % 86400000

/-- Luxon `dt.hour`. -/
def hourOf (t : ℤ) : ℤ := msOfDay t / 3600000

/-- Luxon `dt.minute`. -/
def minuteOf (t : ℤ) : ℤ := msOfDay t % 3600000 / 60000

/-- Luxon `dt.second`. -/
def secondOf (t : ℤ) : ℤ := msOfDay t % 60000 / 1000

/-- ISO weekday of a day number: 1 = Monday .. 7 = Sunday
(1970-01-01, day 0, was a Thursday = 4). -/
def wdDay (d : ℤ) : ℤ := (d + 3) % 7 + 1

/-- Luxon `dt.weekday` (1 = Monday, 7 = Sunday). -/
def weekday (t : ℤ) : ℤ := wdDay (dayOf t)

/-- `isWeekend` of the source: weekday 6 (Saturday) or 7 (Sunday). -/
def isWeekend (t : ℤ) : Bool := weekday t == 6 || weekday t == 7

/-- `toYMD` of the source: the calendar date (as its day number, standing for
the `YYYY-MM-DD` string). -/
def toYMD (t : ℤ) : ℤ := dayOf t

/-- `isWorkingDay` of the source: Monday-Friday and not in the holiday set. -/
def isWorkingDay (t : ℤ) (hol : Finset ℤ) : Bool :=
  if isWeekend t then false else !(decide (toYMD t ∈ hol))

/-- Luxon `dt.set({hour: ms/3600000, minute: 0, second: 0, millisecond: 0})`:
keep the calendar day, replace the time-of-day by `ms` milliseconds. -/
def setTime (t : ℤ) (ms : ℤ) : ℤ := dayOf t * 86400000 + ms

/-- `const hour = dt.hour + dt.minute / 60 + dt.second / 3600` of the source
(milliseconds are not included, exactly as in the source). -/
def hFrac (t : ℤ) : ℚ := (hourOf t : ℚ) + (minuteOf t : ℚ) / 60 + (secondOf t : ℚ) / 3600

/-- JavaScript `Math.round` (round half toward positive infinity). -/
def jsRound (q : ℚ) : ℤ := ⌊q + 1/2⌋

/-- Whole seconds elapsed since local midnight (= `3600*hour + 60*minute + second`). -/
def secOfDay (t : ℤ) : ℤ := msOfDay t / 1000

/-- Canonical fuel for the day-stepping `while` loops: among any
`7 * (hol.card + 1)` consecutive days at least one is working. -/
def wFuel (hol : Finset ℤ) : ℕ := 7 * (hol.card + 1)

/-- Canonical fuel for the normalizer's backward loops. -/
def normFuel (hol : Finset ℤ) : ℕ := 7 * (hol.card + 1) + 1

/-- The `do { dt = dt.minus({days:1}).set({hour:17,...}) } while (!isWorkingDay(dt))`
loop of `normalizeBackwardToWorkingSlot` (non-working-day branch). -/
def backTo17 (hol : Finset ℤ) : ℕ → ℤ → Option ℤ
  | 0, _ => none
  | f + 1, dt =>
    let dt' := setTime (dt - 86400000) 61200000
    if isWorkingDay dt' hol then some dt' else backTo17 hol f dt'

/-- The `while (!isWorkingDay(prev)) prev = prev.minus({days:1})` loop
(time-of-day preserved) of the before-open branch. -/
def walkBack (hol : Finset ℤ) : ℕ → ℤ → Option ℤ
  | 0, dt => if isWorkingDay dt hol then some dt else none
  | f + 1, dt => if isWorkingDay dt hol then some dt else walkBack hol f (dt - 86400000)

/-- The `while (!isWorkingDay(dt)) dt = dt.plus({days:1})` loop
(time-of-day preserved) used by both accumulators. -/
def walkFwd (hol : Finset ℤ) : ℕ → ℤ → Option ℤ
  | 0, dt => if isWorkingDay dt hol then some dt else none
  | f + 1, dt => if isWorkingDay dt hol then some dt else walkFwd hol f (dt + 86400000)

/-- `normalizeBackwardToWorkingSlot` of the source, with canonical fuel for
its two internal loops.  Branch order exactly as in the source:
not-a-working-day, lunch, at-or-after close, before open, otherwise identity. -/
def normalizeBackwardToWorkingSlot (dt : ℤ) (hol : Finset ℤ) : Option ℤ :=
  if isWorkingDay dt hol = false then backTo17 hol (normFuel hol) dt
  else if 12 ≤ hFrac dt ∧ hFrac dt < 13 then some (setTime dt 43200000)
  else if 17 ≤ hFrac dt then some (setTime dt 61200000)
  else if hFrac dt < 8 then (walkBack hol (normFuel hol) (dt - 86400000)).map (fun p => setTime p 61200000)
  else some dt

/-- The `while (remaining > 0)` loop of `addBusinessDays`: each pass advances
one calendar day then keeps advancing while the landed date is not working. -/
def addBusinessDaysLoop (hol : Finset ℤ) (w : ℕ) : ℕ → ℤ → Option ℤ
  | 0, dt => some dt
  | r + 1, dt => (walkFwd hol w (dt + 86400000)).bind fun dt2 => addBusinessDaysLoop hol w r dt2

/-- `addBusinessDays` of the source: no-op for `days ≤ 0`, otherwise `days`
passes of the day-advancing loop, with canonical fuel for the inner walk. -/
def addBusinessDays (start : ℤ) (days : ℤ) (hol : Finset ℤ) : Option ℤ :=
  if days ≤ 0 then some start else addBusinessDaysLoop hol (wFuel hol) days.toNat start

/-- Canonical fuel for the hour-accumulation loop: each in-segment pass
consumes at least one second of `remaining` or ends the loop, and skip
passes alternate with in-segment passes. -/
def bhFuel (hours : ℚ) : ℕ := 2 * (⌈hours * 3600⌉).toNat + 3

/-- The `while (remaining > 0)` loop of `addBusinessHours`, exactly mirroring
the source's branch order: non-working day, before open, lunch, at-or-after
close, then in-segment consumption with `Math.round`-to-minute clock advance.
The JavaScript `number`s `remaining`/`take` are embedded as exact rationals:
this is an idealization of the source's IEEE-754 binary64 arithmetic, in
which `remaining -= take` is absorbed (a no-op) whenever `take` is below half
an ulp of `remaining` — a difference that matters for termination (see C9). -/
def bhLoop (hol : Finset ℤ) (w : ℕ) : ℕ → ℤ → ℚ → Option ℤ
  | 0, dt, remaining => if remaining ≤ 0 then some dt else none
  | f + 1, dt, remaining =>
    if remaining ≤ 0 then some dt
    else if isWorkingDay dt hol = false then
      (walkFwd hol w (setTime (dt + 86400000) 28800000)).bind fun d2 =>
        bhLoop hol w f (setTime d2 28800000) remaining
    else if hFrac dt < 8 then bhLoop hol w f (setTime dt 28800000) remaining
    else if 12 ≤ hFrac dt ∧ hFrac dt < 13 then bhLoop hol w f (setTime dt 46800000) remaining
    else if 17 ≤ hFrac dt then
      (walkFwd hol w (dt + 86400000)).bind fun d2 =>
        bhLoop hol w f (setTime d2 28800000) remaining
    else
      let segmentEnd : ℚ := if 8 ≤ hFrac dt ∧ hFrac dt < 12 then 12 else 17
      let available := segmentEnd - hFrac dt
      let take := min available remaining
      let minutesToAdd := jsRound (take * 60)
      bhLoop hol w f (dt + minutesToAdd * 60000) (remaining - take)

/-- `addBusinessHours` of the source: no-op for `hours ≤ 0`, otherwise the
accumulation loop with canonical fuel. -/
def addBusinessHours (start : ℤ) (hours : ℚ) (hol : Finset ℤ) : Option ℤ :=
  if hours ≤ 0 then some start else bhLoop hol (wFuel hol) (bhFuel hours) start hours

/-- Outcome of `computeBusinessDate`: either the `InvalidDate` failure or a
final UTC instant. -/
inductive CbdOutcome where
  | invalidDate : CbdOutcome
  | ok : ℤ → CbdOutcome
deriving DecidableEq

/-- The normalize → days → hours → to-UTC tail of `computeBusinessDate`,
starting from an already-resolved Bogota-zone instant. -/
def cbdRun (startCol : ℤ) (days : ℤ) (hours : ℚ) (hol : Finset ℤ) : Option CbdOutcome :=
  ((normalizeBackwardToWorkingSlot startCol hol).bind fun normalized =>
    ((if 0 < days then addBusinessDays normalized days hol else some normalized).bind fun afterDays =>
      (if 0 < hours then addBusinessHours afterDays hours hol else some afterDays))).map
    fun afterHours => CbdOutcome.ok (afterHours + utcOffsetMs)

/-- `computeBusinessDate` of the source.  `parse` stands for Luxon's
`DateTime.fromISO(s, {zone:"utc"})` (`none` = invalid), `nowUtc` for
`DateTime.now()`; both are external inputs.  The `if (startUtcIso)` truthiness
test of JavaScript treats the empty string like `null`. -/
def computeBusinessDate (parse : String → Option ℤ) (nowUtc : ℤ)
    (startUtcIso : Option String) (days : ℤ) (hours : ℚ) (hol : Finset ℤ) :
    Option CbdOutcome :=
  match startUtcIso with
  | none => cbdRun (nowUtc - utcOffsetMs) days hours hol
  | some s =>
    if s = "" then cbdRun (nowUtc - utcOffsetMs) days hours hol
    else
      match parse s with
      | none => some CbdOutcome.invalidDate
      | some u => cbdRun (u - utcOffsetMs) days hours hol

/-- Day number of a proleptic-Gregorian civil date (days since 1970-01-01),
used only to write concrete dates readably in theorem statements. -/
def ymdToDay (y m d : ℤ) : ℤ :=
  let y' := if m ≤ 2 then y - 1 else y
  let era := y' / 400
  let yoe := y' - era * 400
  let mp := (m + 9) % 12
  let doy := (153 * mp + 2) / 5 + d - 1
  let doe := yoe * 365 + yoe / 4 - yoe / 100 + doy
  era * 146097 + doe - 719468

/-- UTC instant (epoch milliseconds) of a civil date and time, for theorem
statements. -/
def utcMs (y m d hh mm ss : ℤ) : ℤ :=
  ymdToDay y m d * 86400000 + hh * 3600000 + mm * 60000 + ss * 1000

/-- Modelled from the spec (glossary / §4.2): a business day is a weekday
(Monday-Friday) not present in the holiday set; date-level form used by the
reference normalizer. -/
def businessDayB (d : ℤ) (hol : Finset ℤ) : Bool :=
  decide (wdDay d ≠ 6 ∧ wdDay d ≠ 7 ∧ d ∉ hol)

/-- Modelled from the spec (§4.3): the exact time-of-day of an instant, in
hours, as a rational (milliseconds included). -/
def todQ (t : ℤ) : ℚ := (msOfDay t : ℚ) / 3600000

/-- Modelled from the spec (§4.3 rule 1): repeatedly step back one full day,
each time re-anchoring to the close hour 17:00:00.000, until a working day
is reached. -/
def specStepBack17 (hol : Finset ℤ) : ℕ → ℤ → Option ℤ
  | 0, _ => none
  | f + 1, dt =>
    let dt' := setTime (dt - 86400000) 61200000
    if businessDayB (dayOf dt') hol then some dt' else specStepBack17 hol f dt'

/-- Modelled from the spec (§4.3 rule 4): starting from day `d`, step back one
day at a time until a working day is found; returns that day number. -/
def specPrevWorkingDay (hol : Finset ℤ) : ℕ → ℤ → Option ℤ
  | 0, _ => none
  | f + 1, d => if businessDayB (d - 1) hol then some (d - 1) else specPrevWorkingDay hol f (d - 1)

/-- Modelled from the spec (§4.3): the reference 5-rule ordered decision
procedure for backward normalization:
1. date not a working day → step back a day at a time, re-anchored at
   17:00:00.000, until a working day;
2. lunch (`12 ≤ t < 13`) → same date at 12:00:00.000;
3. at/after close (`t ≥ 17`) → same date at 17:00:00.000;
4. before open (`t < 8`) → previous working day at 17:00:00.000;
5. otherwise unchanged. -/
def normalizeSpec (dt : ℤ) (hol : Finset ℤ) : Option ℤ :=
  if businessDayB (dayOf dt) hol = false then specStepBack17 hol (normFuel hol) dt
  else if 12 ≤ todQ dt ∧ todQ dt < 13 then some (setTime dt 43200000)
  else if 17 ≤ todQ dt then some (setTime dt 61200000)
  else if todQ dt < 8 then
    (specPrevWorkingDay hol (normFuel hol) (dayOf dt)).map (fun w => w * 86400000 + 61200000)
  else some dt

/-- JSON documents, for the holiday-catalog parsing of `fetchHolidays`. -/
inductive Json where
  | str : String → Json
  | num : ℚ → Json
  | jbool : Bool → Json
  | jnull : Json
  | arr : List Json → Json
  | obj : List (String × Json) → Json

/-- `item.split("T")[0]`: the part of the string before the first `T`
(written over the character list so that it evaluates in the kernel). -/
def splitT (s : String) : String := String.mk (s.data.takeWhile (fun c => c ≠ 'T'))

/-- `typeof obj[k] === "string" ? obj[k] : undefined`: look up field `k`,
keeping it only when it is a string. -/
def lookupStr (fs : List (String × Json)) (k : String) : Option String :=
  match fs.lookup k with
  | some (Json.str s) => some s
  | _ => none

/-- Per-item holiday extraction of `fetchHolidays`: a string contributes its
date part; an object contributes its `date` (else `fecha`) string field's
date part; anything else is silently skipped. -/
def addItem (acc : Finset String) (j : Json) : Finset String :=
  match j with
  | Json.str s => insert (splitT s) acc
  | Json.obj fs =>
    match lookupStr fs "date" with
    | some d => insert (splitT d) acc
    | none =>
      match lookupStr fs "fecha" with
      | some d => insert (splitT d) acc
      | none => acc
  | _ => acc

/-- The tolerant JSON-shape handling of `fetchHolidays`: a top-level array is
scanned item by item; a top-level object has each array-valued property
scanned item by item; anything else parses to the empty set. -/
def parseHolidaysJson (j : Json) : Finset String :=
  match j with
  | Json.arr items => items.foldl addItem ∅
  | Json.obj fs =>
    fs.foldl (fun acc kv =>
      match kv.2 with
      | Json.arr items => items.foldl addItem acc
      | _ => acc) ∅
  | _ => ∅

/-- The module-level holiday cache entry `{ ts, holidays }`. -/
structure HolidayCache where
  ts : ℤ
  holidays : Finset String
deriving DecidableEq

/-- Result of the remote `fetch` of the holiday catalog: a non-success
status, or a decoded JSON body. -/
inductive Transport where
  | fail : ℤ → Transport
  | ok : Json → Transport

/-- `HOLIDAY_CACHE_TTL_MS = 1000 * 60 * 60`. -/
def HOLIDAY_CACHE_TTL_MS : ℤ := 1000 * 60 * 60

/-- The cache-miss path of `fetchHolidays`: perform the fetch, throw on a
non-success status (leaving the cache untouched), otherwise parse, store the
set (even an empty one) stamped with the current time, and return it. -/
def fetchMiss (cache : Option HolidayCache) (now : ℤ) (tr : Transport) :
    Except ℤ (Finset String) × Option HolidayCache :=
  match tr with
  | Transport.fail status => (Except.error status, cache)
  | Transport.ok j =>
    let out := parseHolidaysJson j
    (Except.ok out, some ⟨now, out⟩)

/-- `fetchHolidays` of the source, as a pure function of the current cache
state, the current epoch time, and the transport's response.  Returns the
holiday set (or the thrown failure status) together with the cache state
after the call. -/
def fetchHolidays (cache : Option HolidayCache) (now : ℤ) (tr : Transport) :
    Except ℤ (Finset String) × Option HolidayCache :=
  match cache with
  | some c =>
    if now - c.ts < HOLIDAY_CACHE_TTL_MS then (Except.ok c.holidays, some c)
    else fetchMiss cache now tr
  | none => fetchMiss cache now tr

/-- Modelled from Luxon's documented `toISO({suppressMilliseconds: true})`
(used at src/index.ts:89): the serialized string has second precision (no
fractional seconds) iff the instant's millisecond component is zero. -/
def isoSecondPrecision (utc : ℤ) : Bool := utc % 1000 == 0

example : ymdToDay 1970 1 1 = 0 := by decide
example : ymdToDay 2025 10 3 = 20364 := by decide
example : wdDay (ymdToDay 2025 10 3) = 5 := by decide

/-! ### Basic arithmetic facts about the instant encoding -/

theorem dayOf_msOfDay (t : ℤ) : dayOf t * 86400000 + msOfDay t = t := by
  simp only [dayOf, msOfDay]; omega

theorem msOfDay_nonneg (t : ℤ) : 0 ≤ msOfDay t := by simp only [msOfDay]; omega

theorem msOfDay_lt (t : ℤ) : msOfDay t < 86400000 := by simp only [msOfDay]; omega

theorem dayOf_add_mul (t k : ℤ) : dayOf (t + k * 86400000) = dayOf t + k := by
  simp only [dayOf]; omega

theorem msOfDay_add_mul (t k : ℤ) : msOfDay (t + k * 86400000) = msOfDay t := by
  simp only [msOfDay]; omega

theorem dayOf_sub_day (t : ℤ) : dayOf (t - 86400000) = dayOf t - 1 := by
  simp only [dayOf]; omega

theorem msOfDay_sub_day (t : ℤ) : msOfDay (t - 86400000) = msOfDay t := by
  simp only [msOfDay]; omega

theorem dayOf_setTime (t m : ℤ) (h0 : 0 ≤ m) (h1 : m < 86400000) :
    dayOf (setTime t m) = dayOf t := by
  simp only [setTime, dayOf]; omega

theorem msOfDay_setTime (t m : ℤ) (h0 : 0 ≤ m) (h1 : m < 86400000) :
    msOfDay (setTime t m) = m := by
  simp only [setTime, dayOf, msOfDay]; omega

theorem setTime_eq_self (t m : ℤ) (h : msOfDay t = m) : setTime t m = t := by
  simp only [setTime, dayOf, msOfDay] at *; omega

theorem shift_in_day (t x : ℤ) (h0 : 0 ≤ msOfDay t + x) (h1 : msOfDay t + x < 86400000) :
    dayOf (t + x) = dayOf t ∧ msOfDay (t + x) = msOfDay t + x := by
  simp only [dayOf, msOfDay] at *; omega

/-! ### Weekday facts -/

theorem wdDay_bounds (d : ℤ) : 1 ≤ wdDay d ∧ wdDay d ≤ 7 := by
  simp only [wdDay]; omega

theorem wdDay_add_mul_seven (d k : ℤ) : wdDay (d + 7 * k) = wdDay d := by
  simp only [wdDay]; omega

/-! ### The working-day predicate at instant and date level -/

theorem isWorkingDay_eq (t : ℤ) (hol : Finset ℤ) :
    isWorkingDay t hol = businessDayB (dayOf t) hol := by
  simp only [isWorkingDay, isWeekend, weekday, toYMD, businessDayB]
  by_cases h6 : wdDay (dayOf t) = 6 <;> by_cases h7 : wdDay (dayOf t) = 7 <;>
    by_cases hm : dayOf t ∈ hol <;> simp [h6, h7, hm]

theorem businessDayB_true (d : ℤ) (hol : Finset ℤ) (h6 : wdDay d ≠ 6) (h7 : wdDay d ≠ 7)
    (hm : d ∉ hol) : businessDayB d hol = true := by
  simp [businessDayB, h6, h7, hm]

theorem businessDayB_of_weekend (d : ℤ) (hol : Finset ℤ) (h : wdDay d = 6 ∨ wdDay d = 7) :
    businessDayB d hol = false := by
  rcases h with h | h <;> simp [businessDayB, h]

/-! ### hFrac and time-of-day comparisons -/

theorem secOfDay_decomp (t : ℤ) :
    secOfDay t = 3600 * hourOf t + 60 * minuteOf t + secondOf t := by
  simp only [secOfDay, hourOf, minuteOf, secondOf, msOfDay]; omega

theorem hFrac_eq (t : ℤ) : hFrac t = (secOfDay t : ℚ) / 3600 := by
  have h := secOfDay_decomp t
  simp only [hFrac]
  have : (secOfDay t : ℚ) = 3600 * (hourOf t : ℚ) + 60 * (minuteOf t : ℚ) + (secondOf t : ℚ) := by
    exact_mod_cast congrArg (fun z : ℤ => (z : ℚ)) h
  rw [this]; ring

theorem secOfDay_nonneg (t : ℤ) : 0 ≤ secOfDay t := by
  simp only [secOfDay, msOfDay]; omega

theorem le_hFrac_iff (t : ℤ) (H : ℤ) : (H : ℚ) ≤ hFrac t ↔ H * 3600000 ≤ msOfDay t := by
  rw [hFrac_eq]
  rw [le_div_iff₀ (by norm_num : (0:ℚ) < 3600)]
  have : (H : ℚ) * 3600 = ((H * 3600 : ℤ) : ℚ) := by push_cast; ring
  rw [this, Int.cast_le]
  simp only [secOfDay, msOfDay]
  omega

theorem hFrac_lt_iff (t : ℤ) (H : ℤ) : hFrac t < (H : ℚ) ↔ msOfDay t < H * 3600000 := by
  rw [hFrac_eq]
  rw [div_lt_iff₀ (by norm_num : (0:ℚ) < 3600)]
  have : (H : ℚ) * 3600 = ((H * 3600 : ℤ) : ℚ) := by push_cast; ring
  rw [this, Int.cast_lt]
  simp only [secOfDay, msOfDay]
  omega

theorem hFrac_setTime_17 (t : ℤ) : hFrac (setTime t 61200000) = 17 := by
  have hm : msOfDay (setTime t 61200000) = 61200000 := msOfDay_setTime t _ (by norm_num) (by norm_num)
  rw [hFrac_eq]
  simp only [secOfDay, hm]
  norm_num

theorem hFrac_setTime_12 (t : ℤ) : hFrac (setTime t 43200000) = 12 := by
  have hm : msOfDay (setTime t 43200000) = 43200000 := msOfDay_setTime t _ (by norm_num) (by norm_num)
  rw [hFrac_eq]
  simp only [secOfDay, hm]
  norm_num

/-! ### Existence of a working day in every bounded window -/

theorem exists_step_notin (hol : Finset ℤ) (a : ℤ) :
    ∃ i : ℕ, i ≤ hol.card ∧ a + 7 * (i : ℤ) ∉ hol := by
  by_contra h
  push_neg at h
  have hinj : Function.Injective (fun i : ℕ => a + 7 * (i : ℤ)) := by
    intro i j hij
    simp only at hij
    omega
  have hsub : (Finset.range (hol.card + 1)).image (fun i : ℕ => a + 7 * (i : ℤ)) ⊆ hol := by
    intro x hx
    simp only [Finset.mem_image, Finset.mem_range] at hx
    obtain ⟨i, hi, rfl⟩ := hx
    exact h i (by omega)
  have hcard := Finset.card_le_card hsub
  rw [Finset.card_image_of_injective _ hinj, Finset.card_range] at hcard
  omega

theorem wdDay_sub_self_offset (d : ℤ) : wdDay (d - (wdDay d - 1)) = 1 := by
  simp only [wdDay]; omega

theorem wdDay_add_to_monday (d : ℤ) : wdDay (d + (8 - wdDay d) % 7) = 1 := by
  simp only [wdDay]; omega

theorem exists_businessDay_back (hol : Finset ℤ) (d : ℤ) :
    ∃ k : ℕ, k < 7 * (hol.card + 1) ∧ businessDayB (d - (k : ℤ)) hol = true := by
  obtain ⟨i, hi, hnotin⟩ := exists_step_notin hol (d - (wdDay d - 1) - 7 * hol.card)
  have hwd := wdDay_bounds d
  refine ⟨(wdDay d - 1 + 7 * ((hol.card : ℤ) - i)).toNat, by omega, ?_⟩
  have hday : d - (((wdDay d - 1 + 7 * ((hol.card : ℤ) - i)).toNat : ℤ))
      = d - (wdDay d - 1) - 7 * (hol.card : ℤ) + 7 * (i : ℤ) := by omega
  rw [hday]
  have hwd1 : wdDay (d - (wdDay d - 1) - 7 * (hol.card : ℤ) + 7 * (i : ℤ)) = 1 := by
    have heq : d - (wdDay d - 1) - 7 * (hol.card : ℤ) + 7 * (i : ℤ)
        = (d - (wdDay d - 1)) + 7 * ((i : ℤ) - hol.card) := by ring
    rw [heq, wdDay_add_mul_seven, wdDay_sub_self_offset]
  exact businessDayB_true _ hol (by omega) (by omega) hnotin

theorem exists_businessDay_fwd (hol : Finset ℤ) (d : ℤ) :
    ∃ k : ℕ, k < 7 * (hol.card + 1) ∧ businessDayB (d + (k : ℤ)) hol = true := by
  obtain ⟨i, hi, hnotin⟩ := exists_step_notin hol (d + (8 - wdDay d) % 7)
  have hwd := wdDay_bounds d
  have hoff : 0 ≤ (8 - wdDay d) % 7 ∧ (8 - wdDay d) % 7 < 7 := by omega
  refine ⟨((8 - wdDay d) % 7 + 7 * (i : ℤ)).toNat, by omega, ?_⟩
  have hday : d + ((((8 - wdDay d) % 7 + 7 * (i : ℤ)).toNat : ℤ))
      = d + (8 - wdDay d) % 7 + 7 * (i : ℤ) := by omega
  rw [hday]
  have hwd1 : wdDay (d + (8 - wdDay d) % 7 + 7 * (i : ℤ)) = 1 := by
    rw [wdDay_add_mul_seven, wdDay_add_to_monday]
  exact businessDayB_true _ hol (by omega) (by omega) hnotin

/-! ### Behavior of the fueled day-walks -/

theorem walkFwd_reach (hol : Finset ℤ) :
    ∀ (k f : ℕ) (dt : ℤ), k ≤ f →
      (∀ j : ℕ, j < k → isWorkingDay (dt + (j : ℤ) * 86400000) hol = false) →
      isWorkingDay (dt + (k : ℤ) * 86400000) hol = true →
      walkFwd hol f dt = some (dt + (k : ℤ) * 86400000) := by
  intro k
  induction k with
  | zero =>
    intro f dt _ _ hw
    norm_num at hw ⊢
    cases f <;> simp [walkFwd, hw]
  | succ k ih =>
    intro f dt hkf h0 hw
    have hnw : isWorkingDay dt hol = false := by
      have := h0 0 (by omega)
      norm_num at this
      exact this
    obtain ⟨f', rfl⟩ : ∃ f', f = f' + 1 := ⟨f - 1, by omega⟩
    have step : walkFwd hol (f' + 1) dt = walkFwd hol f' (dt + 86400000) := by
      simp [walkFwd, hnw]
    rw [step]
    have h0' : ∀ j : ℕ, j < k → isWorkingDay (dt + 86400000 + (j : ℤ) * 86400000) hol = false := by
      intro j hj
      have := h0 (j + 1) (by omega)
      have harg : dt + ((j : ℤ) + 1) * 86400000 = dt + 86400000 + (j : ℤ) * 86400000 := by ring
      rw [show ((j + 1 : ℕ) : ℤ) = (j : ℤ) + 1 by push_cast; ring, harg] at this
      exact this
    have hw' : isWorkingDay (dt + 86400000 + (k : ℤ) * 86400000) hol = true := by
      have harg : dt + ((k : ℤ) + 1) * 86400000 = dt + 86400000 + (k : ℤ) * 86400000 := by ring
      rw [show ((k + 1 : ℕ) : ℤ) = (k : ℤ) + 1 by push_cast; ring, harg] at hw
      exact hw
    rw [ih f' (dt + 86400000) (by omega) h0' hw']
    congr 1
    push_cast
    ring

theorem walkFwd_sound (hol : Finset ℤ) :
    ∀ (f : ℕ) (dt r : ℤ), walkFwd hol f dt = some r →
      isWorkingDay r hol = true ∧ msOfDay r = msOfDay dt ∧ dayOf dt ≤ dayOf r := by
  intro f
  induction f with
  | zero =>
    intro dt r h
    by_cases hw : isWorkingDay dt hol = true
    · simp [walkFwd, hw] at h
      subst h
      exact ⟨hw, rfl, le_refl _⟩
    · simp only [Bool.not_eq_true] at hw
      simp [walkFwd, hw] at h
  | succ f ih =>
    intro dt r h
    by_cases hw : isWorkingDay dt hol = true
    · simp [walkFwd, hw] at h
      subst h
      exact ⟨hw, rfl, le_refl _⟩
    · simp only [Bool.not_eq_true] at hw
      simp only [walkFwd, hw, Bool.false_eq_true, if_false] at h
      obtain ⟨h1, h2, h3⟩ := ih (dt + 86400000) r h
      refine ⟨h1, ?_, ?_⟩
      · rw [h2, show dt + 86400000 = dt + 1 * 86400000 by ring, msOfDay_add_mul]
      · have := dayOf_add_mul dt 1
        rw [show dt + 1 * 86400000 = dt + 86400000 by ring] at this
        omega

theorem walkFwd_total (hol : Finset ℤ) (f : ℕ) (dt : ℤ) (hf : 7 * (hol.card + 1) ≤ f + 1) :
    ∃ r, walkFwd hol f dt = some r := by
  obtain ⟨k0, hk0, hb⟩ := exists_businessDay_fwd hol (dayOf dt)
  have hex : ∃ k : ℕ, isWorkingDay (dt + (k : ℤ) * 86400000) hol = true := by
    refine ⟨k0, ?_⟩
    rw [isWorkingDay_eq, dayOf_add_mul]
    exact hb
  refine ⟨_, walkFwd_reach hol (Nat.find hex) f dt ?_ ?_ (Nat.find_spec hex)⟩
  · have hple : isWorkingDay (dt + (k0 : ℤ) * 86400000) hol = true := by
      rw [isWorkingDay_eq, dayOf_add_mul]; exact hb
    have := Nat.find_min' hex hple
    omega
  · intro j hj
    have := Nat.find_min hex hj
    simpa using this

theorem walkBack_reach (hol : Finset ℤ) :
    ∀ (k f : ℕ) (dt : ℤ), k ≤ f →
      (∀ j : ℕ, j < k → isWorkingDay (dt - (j : ℤ) * 86400000) hol = false) →
      isWorkingDay (dt - (k : ℤ) * 86400000) hol = true →
      walkBack hol f dt = some (dt - (k : ℤ) * 86400000) := by
  intro k
  induction k with
  | zero =>
    intro f dt _ _ hw
    norm_num at hw ⊢
    cases f <;> simp [walkBack, hw]
  | succ k ih =>
    intro f dt hkf h0 hw
    have hnw : isWorkingDay dt hol = false := by
      have := h0 0 (by omega)
      norm_num at this
      exact this
    obtain ⟨f', rfl⟩ : ∃ f', f = f' + 1 := ⟨f - 1, by omega⟩
    have step : walkBack hol (f' + 1) dt = walkBack hol f' (dt - 86400000) := by
      simp [walkBack, hnw]
    rw [step]
    have h0' : ∀ j : ℕ, j < k → isWorkingDay (dt - 86400000 - (j : ℤ) * 86400000) hol = false := by
      intro j hj
      have := h0 (j + 1) (by omega)
      have harg : dt - ((j : ℤ) + 1) * 86400000 = dt - 86400000 - (j : ℤ) * 86400000 := by ring
      rw [show ((j + 1 : ℕ) : ℤ) = (j : ℤ) + 1 by push_cast; ring, harg] at this
      exact this
    have hw' : isWorkingDay (dt - 86400000 - (k : ℤ) * 86400000) hol = true := by
      have harg : dt - ((k : ℤ) + 1) * 86400000 = dt - 86400000 - (k : ℤ) * 86400000 := by ring
      rw [show ((k + 1 : ℕ) : ℤ) = (k : ℤ) + 1 by push_cast; ring, harg] at hw
      exact hw
    rw [ih f' (dt - 86400000) (by omega) h0' hw']
    congr 1
    push_cast
    ring

theorem walkBack_sound (hol : Finset ℤ) :
    ∀ (f : ℕ) (dt r : ℤ), walkBack hol f dt = some r →
      isWorkingDay r hol = true ∧ msOfDay r = msOfDay dt := by
  intro f
  induction f with
  | zero =>
    intro dt r h
    by_cases hw : isWorkingDay dt hol = true
    · simp [walkBack, hw] at h
      subst h
      exact ⟨hw, rfl⟩
    · simp only [Bool.not_eq_true] at hw
      simp [walkBack, hw] at h
  | succ f ih =>
    intro dt r h
    by_cases hw : isWorkingDay dt hol = true
    · simp [walkBack, hw] at h
      subst h
      exact ⟨hw, rfl⟩
    · simp only [Bool.not_eq_true] at hw
      simp only [walkBack, hw, Bool.false_eq_true, if_false] at h
      obtain ⟨h1, h2⟩ := ih (dt - 86400000) r h
      refine ⟨h1, ?_⟩
      rw [h2, msOfDay_sub_day]

/-! ### Behavior of the normalizer's backward loops -/

theorem backTo17_reach (hol : Finset ℤ) :
    ∀ (k f : ℕ) (dt : ℤ), k + 1 ≤ f →
      (∀ j : ℕ, j < k → businessDayB (dayOf dt - 1 - (j : ℤ)) hol = false) →
      businessDayB (dayOf dt - 1 - (k : ℤ)) hol = true →
      backTo17 hol f dt = some ((dayOf dt - 1 - (k : ℤ)) * 86400000 + 61200000) := by
  intro k
  induction k with
  | zero =>
    intro f dt hf _ hw
    obtain ⟨f', rfl⟩ : ∃ f', f = f' + 1 := ⟨f - 1, by omega⟩
    have hday : dayOf (setTime (dt - 86400000) 61200000) = dayOf dt - 1 := by
      rw [dayOf_setTime _ _ (by norm_num) (by norm_num), dayOf_sub_day]
    have hwork : isWorkingDay (setTime (dt - 86400000) 61200000) hol = true := by
      rw [isWorkingDay_eq, hday]
      norm_num at hw
      exact hw
    simp only [backTo17, hwork, if_true]
    simp only [setTime, dayOf_sub_day]
    norm_num
  | succ k ih =>
    intro f dt hf h0 hw
    obtain ⟨f', rfl⟩ : ∃ f', f = f' + 1 := ⟨f - 1, by omega⟩
    have hday : dayOf (setTime (dt - 86400000) 61200000) = dayOf dt - 1 := by
      rw [dayOf_setTime _ _ (by norm_num) (by norm_num), dayOf_sub_day]
    have hnw : isWorkingDay (setTime (dt - 86400000) 61200000) hol = false := by
      rw [isWorkingDay_eq, hday]
      have := h0 0 (by omega)
      norm_num at this
      exact this
    have step : backTo17 hol (f' + 1) dt = backTo17 hol f' (setTime (dt - 86400000) 61200000) := by
      simp [backTo17, hnw]
    rw [step]
    have h0' : ∀ j : ℕ, j < k →
        businessDayB (dayOf (setTime (dt - 86400000) 61200000) - 1 - (j : ℤ)) hol = false := by
      intro j hj
      rw [hday]
      have := h0 (j + 1) (by omega)
      rw [show ((j + 1 : ℕ) : ℤ) = (j : ℤ) + 1 by push_cast; ring] at this
      rw [show dayOf dt - 1 - ((j : ℤ) + 1) = dayOf dt - 1 - 1 - (j : ℤ) by ring] at this
      exact this
    have hw' : businessDayB (dayOf (setTime (dt - 86400000) 61200000) - 1 - (k : ℤ)) hol = true := by
      rw [hday]
      rw [show ((k + 1 : ℕ) : ℤ) = (k : ℤ) + 1 by push_cast; ring] at hw
      rw [show dayOf dt - 1 - ((k : ℤ) + 1) = dayOf dt - 1 - 1 - (k : ℤ) by ring] at hw
      exact hw
    rw [ih f' (setTime (dt - 86400000) 61200000) (by omega) h0' hw']
    rw [hday]
    congr 2
    push_cast
    ring

theorem backTo17_sound (hol : Finset ℤ) :
    ∀ (f : ℕ) (dt r : ℤ), backTo17 hol f dt = some r →
      isWorkingDay r hol = true ∧ msOfDay r = 61200000 := by
  intro f
  induction f with
  | zero => intro dt r h; simp [backTo17] at h
  | succ f ih =>
    intro dt r h
    by_cases hw : isWorkingDay (setTime (dt - 86400000) 61200000) hol = true
    · simp only [backTo17, hw, if_true, Option.some_inj] at h
      subst h
      exact ⟨hw, msOfDay_setTime _ _ (by norm_num) (by norm_num)⟩
    · simp only [Bool.not_eq_true] at hw
      simp only [backTo17, hw, Bool.false_eq_true, if_false] at h
      exact ih _ r h

theorem specStepBack17_reach (hol : Finset ℤ) :
    ∀ (k f : ℕ) (dt : ℤ), k + 1 ≤ f →
      (∀ j : ℕ, j < k → businessDayB (dayOf dt - 1 - (j : ℤ)) hol = false) →
      businessDayB (dayOf dt - 1 - (k : ℤ)) hol = true →
      specStepBack17 hol f dt = some ((dayOf dt - 1 - (k : ℤ)) * 86400000 + 61200000) := by
  intro k
  induction k with
  | zero =>
    intro f dt hf _ hw
    obtain ⟨f', rfl⟩ : ∃ f', f = f' + 1 := ⟨f - 1, by omega⟩
    have hday : dayOf (setTime (dt - 86400000) 61200000) = dayOf dt - 1 := by
      rw [dayOf_setTime _ _ (by norm_num) (by norm_num), dayOf_sub_day]
    norm_num at hw
    have hb : businessDayB (dayOf (setTime (dt - 86400000) 61200000)) hol = true := by
      rw [hday]; exact hw
    simp only [specStepBack17, hb, if_true]
    simp only [setTime, dayOf_sub_day]
    norm_num
  | succ k ih =>
    intro f dt hf h0 hw
    obtain ⟨f', rfl⟩ : ∃ f', f = f' + 1 := ⟨f - 1, by omega⟩
    have hday : dayOf (setTime (dt - 86400000) 61200000) = dayOf dt - 1 := by
      rw [dayOf_setTime _ _ (by norm_num) (by norm_num), dayOf_sub_day]
    have hnb : businessDayB (dayOf (setTime (dt - 86400000) 61200000)) hol = false := by
      rw [hday]
      have := h0 0 (by omega)
      norm_num at this
      exact this
    have step : specStepBack17 hol (f' + 1) dt
        = specStepBack17 hol f' (setTime (dt - 86400000) 61200000) := by
      simp [specStepBack17, hnb]
    rw [step]
    have h0' : ∀ j : ℕ, j < k →
        businessDayB (dayOf (setTime (dt - 86400000) 61200000) - 1 - (j : ℤ)) hol = false := by
      intro j hj
      rw [hday]
      have := h0 (j + 1) (by omega)
      rw [show ((j + 1 : ℕ) : ℤ) = (j : ℤ) + 1 by push_cast; ring] at this
      rw [show dayOf dt - 1 - ((j : ℤ) + 1) = dayOf dt - 1 - 1 - (j : ℤ) by ring] at this
      exact this
    have hw' : businessDayB (dayOf (setTime (dt - 86400000) 61200000) - 1 - (k : ℤ)) hol = true := by
      rw [hday]
      rw [show ((k + 1 : ℕ) : ℤ) = (k : ℤ) + 1 by push_cast; ring] at hw
      rw [show dayOf dt - 1 - ((k : ℤ) + 1) = dayOf dt - 1 - 1 - (k : ℤ) by ring] at hw
      exact hw
    rw [ih f' (setTime (dt - 86400000) 61200000) (by omega) h0' hw']
    rw [hday]
    congr 2
    push_cast
    ring

theorem specPrevWorkingDay_reach (hol : Finset ℤ) :
    ∀ (k f : ℕ) (d : ℤ), k + 1 ≤ f →
      (∀ j : ℕ, j < k → businessDayB (d - 1 - (j : ℤ)) hol = false) →
      businessDayB (d - 1 - (k : ℤ)) hol = true →
      specPrevWorkingDay hol f d = some (d - 1 - (k : ℤ)) := by
  intro k
  induction k with
  | zero =>
    intro f d hf _ hw
    obtain ⟨f', rfl⟩ : ∃ f', f = f' + 1 := ⟨f - 1, by omega⟩
    norm_num at hw ⊢
    simp [specPrevWorkingDay, hw]
  | succ k ih =>
    intro f d hf h0 hw
    obtain ⟨f', rfl⟩ : ∃ f', f = f' + 1 := ⟨f - 1, by omega⟩
    have hnb : businessDayB (d - 1) hol = false := by
      have := h0 0 (by omega)
      norm_num at this
      exact this
    have step : specPrevWorkingDay hol (f' + 1) d = specPrevWorkingDay hol f' (d - 1) := by
      simp [specPrevWorkingDay, hnb]
    rw [step]
    have h0' : ∀ j : ℕ, j < k → businessDayB (d - 1 - 1 - (j : ℤ)) hol = false := by
      intro j hj
      have := h0 (j + 1) (by omega)
      rw [show ((j + 1 : ℕ) : ℤ) = (j : ℤ) + 1 by push_cast; ring] at this
      rw [show d - 1 - ((j : ℤ) + 1) = d - 1 - 1 - (j : ℤ) by ring] at this
      exact this
    have hw' : businessDayB (d - 1 - 1 - (k : ℤ)) hol = true := by
      rw [show ((k + 1 : ℕ) : ℤ) = (k : ℤ) + 1 by push_cast; ring] at hw
      rw [show d - 1 - ((k : ℤ) + 1) = d - 1 - 1 - (k : ℤ) by ring] at hw
      exact hw
    rw [ih f' (d - 1) (by omega) h0' hw']
    congr 1
    push_cast
    ring

theorem dayOf_sub_mul (t k : ℤ) : dayOf (t - k * 86400000) = dayOf t - k := by
  simp only [dayOf]; omega

theorem msOfDay_sub_mul (t k : ℤ) : msOfDay (t - k * 86400000) = msOfDay t := by
  simp only [msOfDay]; omega

/-! ### Exact time-of-day versus the source's millisecond-dropping `hour` -/

theorem le_todQ_iff (t : ℤ) (H : ℤ) : (H : ℚ) ≤ todQ t ↔ H * 3600000 ≤ msOfDay t := by
  rw [todQ, le_div_iff₀ (by norm_num : (0:ℚ) < 3600000)]
  rw [show (H : ℚ) * 3600000 = ((H * 3600000 : ℤ) : ℚ) by push_cast; ring, Int.cast_le]

theorem todQ_lt_iff (t : ℤ) (H : ℤ) : todQ t < (H : ℚ) ↔ msOfDay t < H * 3600000 := by
  rw [todQ, div_lt_iff₀ (by norm_num : (0:ℚ) < 3600000)]
  rw [show (H : ℚ) * 3600000 = ((H * 3600000 : ℤ) : ℚ) by push_cast; ring, Int.cast_lt]

/-- At whole-hour boundaries the source's millisecond-dropping fractional hour
and the exact time-of-day make the same comparisons. -/
theorem hFrac_todQ_le (t : ℤ) (H : ℤ) : ((H : ℚ) ≤ hFrac t) ↔ ((H : ℚ) ≤ todQ t) := by
  rw [le_hFrac_iff, le_todQ_iff]

theorem hFrac_todQ_lt (t : ℤ) (H : ℤ) : (hFrac t < (H : ℚ)) ↔ (todQ t < (H : ℚ)) := by
  rw [hFrac_lt_iff, todQ_lt_iff]

/-! ### The least backward distance to a working day -/

theorem exists_least_back (hol : Finset ℤ) (d : ℤ) :
    ∃ k : ℕ, k < 7 * (hol.card + 1) ∧ businessDayB (d - 1 - (k : ℤ)) hol = true ∧
      ∀ j : ℕ, j < k → businessDayB (d - 1 - (j : ℤ)) hol = false := by
  obtain ⟨k0, hk0, hb⟩ := exists_businessDay_back hol (d - 1)
  have hb' : businessDayB (d - 1 - (k0 : ℤ)) hol = true := hb
  have hex : ∃ k : ℕ, businessDayB (d - 1 - (k : ℤ)) hol = true := ⟨k0, hb'⟩
  refine ⟨Nat.find hex, ?_, Nat.find_spec hex, fun j hj => by simpa using Nat.find_min hex hj⟩
  have := Nat.find_min' hex hb'
  omega

/-! ### Branch-evaluation lemmas for the normalizer -/

theorem norm_eval_notWorking (dt : ℤ) (hol : Finset ℤ) (hw : isWorkingDay dt hol = false) :
    normalizeBackwardToWorkingSlot dt hol = backTo17 hol (normFuel hol) dt := by
  rw [normalizeBackwardToWorkingSlot, if_pos hw]

theorem norm_eval_lunch (dt : ℤ) (hol : Finset ℤ) (hw : isWorkingDay dt hol = true)
    (hl : 12 ≤ hFrac dt ∧ hFrac dt < 13) :
    normalizeBackwardToWorkingSlot dt hol = some (setTime dt 43200000) := by
  rw [normalizeBackwardToWorkingSlot, if_neg (by simp [hw]), if_pos hl]

theorem norm_eval_close (dt : ℤ) (hol : Finset ℤ) (hw : isWorkingDay dt hol = true)
    (hl : ¬(12 ≤ hFrac dt ∧ hFrac dt < 13)) (hc : 17 ≤ hFrac dt) :
    normalizeBackwardToWorkingSlot dt hol = some (setTime dt 61200000) := by
  rw [normalizeBackwardToWorkingSlot, if_neg (by simp [hw]), if_neg hl, if_pos hc]

theorem norm_eval_beforeOpen (dt : ℤ) (hol : Finset ℤ) (hw : isWorkingDay dt hol = true)
    (hl : ¬(12 ≤ hFrac dt ∧ hFrac dt < 13)) (hc : ¬(17 ≤ hFrac dt)) (ho : hFrac dt < 8) :
    normalizeBackwardToWorkingSlot dt hol
      = (walkBack hol (normFuel hol) (dt - 86400000)).map (fun p => setTime p 61200000) := by
  rw [normalizeBackwardToWorkingSlot, if_neg (by simp [hw]), if_neg hl, if_neg hc, if_pos ho]

theorem norm_eval_inSegment (dt : ℤ) (hol : Finset ℤ) (hw : isWorkingDay dt hol = true)
    (hl : ¬(12 ≤ hFrac dt ∧ hFrac dt < 13)) (hc : ¬(17 ≤ hFrac dt)) (ho : ¬(hFrac dt < 8)) :
    normalizeBackwardToWorkingSlot dt hol = some dt := by
  rw [normalizeBackwardToWorkingSlot, if_neg (by simp [hw]), if_neg hl, if_neg hc, if_neg ho]

/-- Characterization of every result of the normalizer: it lies on a working
day, and is either anchored at 17:00:00.000, anchored at 12:00:00.000, or is
the unchanged input lying inside a working segment. -/
theorem normalize_char (dt : ℤ) (hol : Finset ℤ) (r : ℤ)
    (h : normalizeBackwardToWorkingSlot dt hol = some r) :
    isWorkingDay r hol = true ∧
      (msOfDay r = 61200000 ∨ msOfDay r = 43200000 ∨
        (¬(12 ≤ hFrac r ∧ hFrac r < 13) ∧ ¬(17 ≤ hFrac r) ∧ ¬(hFrac r < 8))) := by
  by_cases hw : isWorkingDay dt hol = true
  · by_cases hl : 12 ≤ hFrac dt ∧ hFrac dt < 13
    · rw [norm_eval_lunch dt hol hw hl, Option.some_inj] at h
      subst h
      refine ⟨?_, Or.inr (Or.inl (msOfDay_setTime _ _ (by norm_num) (by norm_num)))⟩
      rw [isWorkingDay_eq, dayOf_setTime _ _ (by norm_num) (by norm_num)]
      rw [isWorkingDay_eq] at hw
      exact hw
    · by_cases hc : 17 ≤ hFrac dt
      · rw [norm_eval_close dt hol hw hl hc, Option.some_inj] at h
        subst h
        refine ⟨?_, Or.inl (msOfDay_setTime _ _ (by norm_num) (by norm_num))⟩
        rw [isWorkingDay_eq, dayOf_setTime _ _ (by norm_num) (by norm_num)]
        rw [isWorkingDay_eq] at hw
        exact hw
      · by_cases ho : hFrac dt < 8
        · rw [norm_eval_beforeOpen dt hol hw hl hc ho] at h
          obtain ⟨p, hp, rfl⟩ := Option.map_eq_some'.mp h
          obtain ⟨hpw, _⟩ := walkBack_sound hol _ _ _ hp
          refine ⟨?_, Or.inl (msOfDay_setTime _ _ (by norm_num) (by norm_num))⟩
          rw [isWorkingDay_eq, dayOf_setTime _ _ (by norm_num) (by norm_num)]
          rw [isWorkingDay_eq] at hpw
          exact hpw
        · rw [norm_eval_inSegment dt hol hw hl hc ho, Option.some_inj] at h
          subst h
          exact ⟨hw, Or.inr (Or.inr ⟨hl, hc, ho⟩)⟩
  · simp only [Bool.not_eq_true] at hw
    rw [norm_eval_notWorking dt hol hw] at h
    obtain ⟨h1, h2⟩ := backTo17_sound hol _ _ _ h
    exact ⟨h1, Or.inl h2⟩

theorem hFrac_of_ms17 (r : ℤ) (h : msOfDay r = 61200000) : hFrac r = 17 := by
  rw [hFrac_eq]
  simp only [secOfDay, h]
  norm_num

theorem hFrac_of_ms12 (r : ℤ) (h : msOfDay r = 43200000) : hFrac r = 12 := by
  rw [hFrac_eq]
  simp only [secOfDay, h]
  norm_num

/-- C3: `normalizeBackwardToWorkingSlot` is idempotent: renormalizing any
produced instant returns it unchanged (stated through `Option.bind` on the
fuel-carrying embedding). -/
theorem c3_normalizeBackwardToWorkingSlot_idempotent (dt : ℤ) (hol : Finset ℤ) :
    (normalizeBackwardToWorkingSlot dt hol).bind (fun r => normalizeBackwardToWorkingSlot r hol)
      = normalizeBackwardToWorkingSlot dt hol := by
  cases hn : normalizeBackwardToWorkingSlot dt hol with
  | none => rfl
  | some r =>
    simp only [Option.some_bind]
    obtain ⟨hw, hcase⟩ := normalize_char dt hol r hn
    rcases hcase with h17 | h12 | h5
    · have hf : hFrac r = 17 := hFrac_of_ms17 r h17
      rw [norm_eval_close r hol hw (by rw [hf]; norm_num) (by rw [hf])]
      rw [setTime_eq_self r _ h17]
    · have hf : hFrac r = 12 := hFrac_of_ms12 r h12
      rw [norm_eval_lunch r hol hw (by rw [hf]; norm_num)]
      rw [setTime_eq_self r _ h12]
    · obtain ⟨hl, hc, ho⟩ := h5
      rw [norm_eval_inSegment r hol hw hl hc ho]

/-- C2: `normalizeBackwardToWorkingSlot` coincides with the spec's 5-rule
ordered decision procedure `normalizeSpec` (which walks dates and compares
the exact time-of-day), and it always produces a result at the canonical
fuel. -/
theorem c2_normalizeBackwardToWorkingSlot_matches_spec (dt : ℤ) (hol : Finset ℤ) :
    normalizeBackwardToWorkingSlot dt hol = normalizeSpec dt hol ∧
      (normalizeBackwardToWorkingSlot dt hol).isSome = true := by
  by_cases hb : businessDayB (dayOf dt) hol = true
  · have hw : isWorkingDay dt hol = true := by rw [isWorkingDay_eq]; exact hb
    have hspec1 : ¬(businessDayB (dayOf dt) hol = false) := by simp [hb]
    have h12 : ((12:ℚ) ≤ hFrac dt) ↔ ((12:ℚ) ≤ todQ dt) := by
      have := hFrac_todQ_le dt 12
      push_cast at this
      exact this
    have h13 : (hFrac dt < (13:ℚ)) ↔ (todQ dt < (13:ℚ)) := by
      have := hFrac_todQ_lt dt 13
      push_cast at this
      exact this
    have h17 : ((17:ℚ) ≤ hFrac dt) ↔ ((17:ℚ) ≤ todQ dt) := by
      have := hFrac_todQ_le dt 17
      push_cast at this
      exact this
    have h8 : (hFrac dt < (8:ℚ)) ↔ (todQ dt < (8:ℚ)) := by
      have := hFrac_todQ_lt dt 8
      push_cast at this
      exact this
    by_cases hl : 12 ≤ hFrac dt ∧ hFrac dt < 13
    · have hl' : 12 ≤ todQ dt ∧ todQ dt < 13 := ⟨h12.mp hl.1, h13.mp hl.2⟩
      rw [norm_eval_lunch dt hol hw hl, normalizeSpec, if_neg hspec1, if_pos hl']
      simp
    · have hl' : ¬(12 ≤ todQ dt ∧ todQ dt < 13) := fun h => hl ⟨h12.mpr h.1, h13.mpr h.2⟩
      by_cases hc : 17 ≤ hFrac dt
      · rw [norm_eval_close dt hol hw hl hc, normalizeSpec, if_neg hspec1, if_neg hl',
          if_pos (h17.mp hc)]
        simp
      · have hc' : ¬(17 ≤ todQ dt) := fun h => hc (h17.mpr h)
        by_cases ho : hFrac dt < 8
        · obtain ⟨k, hk, hkw, hkmin⟩ := exists_least_back hol (dayOf dt)
          have hdayk : ∀ j : ℕ, dayOf (dt - 86400000 - (j : ℤ) * 86400000) = dayOf dt - 1 - j := by
            intro j
            rw [show dt - 86400000 - (j:ℤ)*86400000 = dt - (1 + (j:ℤ)) * 86400000 by ring,
              dayOf_sub_mul]
            ring
          have hwb : walkBack hol (normFuel hol) (dt - 86400000)
              = some (dt - 86400000 - (k : ℤ) * 86400000) := by
            apply walkBack_reach
            · simp only [normFuel]; omega
            · intro j hj
              rw [isWorkingDay_eq, hdayk j]
              exact hkmin j hj
            · rw [isWorkingDay_eq, hdayk k]
              exact hkw
          have hsp : specPrevWorkingDay hol (normFuel hol) (dayOf dt)
              = some (dayOf dt - 1 - (k : ℤ)) := by
            apply specPrevWorkingDay_reach hol k (normFuel hol) (dayOf dt) _ hkmin hkw
            simp only [normFuel]; omega
          rw [norm_eval_beforeOpen dt hol hw hl hc ho, normalizeSpec, if_neg hspec1,
            if_neg hl', if_neg hc', if_pos (h8.mp ho), hwb, hsp]
          constructor
          · simp only [Option.map_some']
            congr 1
            rw [setTime, show dt - 86400000 - (k:ℤ)*86400000 = dt - (1 + (k:ℤ)) * 86400000 by ring,
              dayOf_sub_mul]
            ring
          · simp
        · have ho' : ¬(todQ dt < 8) := fun h => ho (h8.mpr h)
          rw [norm_eval_inSegment dt hol hw hl hc ho, normalizeSpec, if_neg hspec1,
            if_neg hl', if_neg hc', if_neg ho']
          simp
  · have hbf : businessDayB (dayOf dt) hol = false := by simpa using hb
    have hw : isWorkingDay dt hol = false := by rw [isWorkingDay_eq]; exact hbf
    obtain ⟨k, hk, hkw, hkmin⟩ := exists_least_back hol (dayOf dt)
    have h1 := backTo17_reach hol k (normFuel hol) dt (by simp only [normFuel]; omega) hkmin hkw
    have h2 := specStepBack17_reach hol k (normFuel hol) dt (by simp only [normFuel]; omega) hkmin hkw
    rw [norm_eval_notWorking dt hol hw, normalizeSpec, if_pos hbf, h1, h2]
    simp

/-! ### Branch-evaluation lemmas for the hour-accumulation loop -/

theorem hFrac_of_ms8 (r : ℤ) (h : msOfDay r = 28800000) : hFrac r = 8 := by
  rw [hFrac_eq]
  simp only [secOfDay, h]
  norm_num

theorem hFrac_of_ms13 (r : ℤ) (h : msOfDay r = 46800000) : hFrac r = 13 := by
  rw [hFrac_eq]
  simp only [secOfDay, h]
  norm_num

theorem bh_eval_exit (hol : Finset ℤ) (w F : ℕ) (dt : ℤ) (rem : ℚ) (h : rem ≤ 0) :
    bhLoop hol w F dt rem = some dt := by
  cases F <;> simp only [bhLoop, if_pos h]

theorem bh_eval_notWorking (hol : Finset ℤ) (w f : ℕ) (dt : ℤ) (rem : ℚ)
    (h0 : ¬(rem ≤ 0)) (hw : isWorkingDay dt hol = false) :
    bhLoop hol w (f + 1) dt rem
      = (walkFwd hol w (setTime (dt + 86400000) 28800000)).bind fun d2 =>
          bhLoop hol w f (setTime d2 28800000) rem := by
  simp only [bhLoop]
  rw [if_neg h0, if_pos hw]

theorem bh_eval_beforeOpen (hol : Finset ℤ) (w f : ℕ) (dt : ℤ) (rem : ℚ)
    (h0 : ¬(rem ≤ 0)) (hw : isWorkingDay dt hol = true) (ho : hFrac dt < 8) :
    bhLoop hol w (f + 1) dt rem = bhLoop hol w f (setTime dt 28800000) rem := by
  simp only [bhLoop]
  rw [if_neg h0, if_neg (by simp [hw]), if_pos ho]

theorem bh_eval_lunch (hol : Finset ℤ) (w f : ℕ) (dt : ℤ) (rem : ℚ)
    (h0 : ¬(rem ≤ 0)) (hw : isWorkingDay dt hol = true) (ho : ¬(hFrac dt < 8))
    (hl : 12 ≤ hFrac dt ∧ hFrac dt < 13) :
    bhLoop hol w (f + 1) dt rem = bhLoop hol w f (setTime dt 46800000) rem := by
  simp only [bhLoop]
  rw [if_neg h0, if_neg (by simp [hw]), if_neg ho, if_pos hl]

theorem bh_eval_close (hol : Finset ℤ) (w f : ℕ) (dt : ℤ) (rem : ℚ)
    (h0 : ¬(rem ≤ 0)) (hw : isWorkingDay dt hol = true) (ho : ¬(hFrac dt < 8))
    (hl : ¬(12 ≤ hFrac dt ∧ hFrac dt < 13)) (hc : 17 ≤ hFrac dt) :
    bhLoop hol w (f + 1) dt rem
      = (walkFwd hol w (dt + 86400000)).bind fun d2 =>
          bhLoop hol w f (setTime d2 28800000) rem := by
  simp only [bhLoop]
  rw [if_neg h0, if_neg (by simp [hw]), if_neg ho, if_neg hl, if_pos hc]

theorem bh_eval_consume (hol : Finset ℤ) (w f : ℕ) (dt : ℤ) (rem : ℚ)
    (h0 : ¬(rem ≤ 0)) (hw : isWorkingDay dt hol = true) (ho : ¬(hFrac dt < 8))
    (hl : ¬(12 ≤ hFrac dt ∧ hFrac dt < 13)) (hc : ¬(17 ≤ hFrac dt)) :
    bhLoop hol w (f + 1) dt rem
      = bhLoop hol w f
          (dt + jsRound
            ((min ((if 8 ≤ hFrac dt ∧ hFrac dt < 12 then (12:ℚ) else 17) - hFrac dt) rem) * 60) * 60000)
          (rem - min ((if 8 ≤ hFrac dt ∧ hFrac dt < 12 then (12:ℚ) else 17) - hFrac dt) rem) := by
  simp only [bhLoop]
  rw [if_neg h0, if_neg (by simp [hw]), if_neg ho, if_neg hl, if_neg hc]

/-! ### Consume-branch arithmetic -/

theorem jsRound_nonneg (q : ℚ) (h : 0 ≤ q) : 0 ≤ jsRound q := by
  rw [jsRound]
  exact Int.le_floor.mpr (by push_cast; linarith)

theorem jsRound_le (q : ℚ) : (jsRound q : ℚ) ≤ q + 1/2 := by
  rw [jsRound]
  exact Int.floor_le _

/-- In the consume branch the hours available in the segment are `a/3600` for
an integer number of seconds `a` with `1 ≤ a ≤ 61200 - secOfDay dt`. -/
theorem consume_available (dt : ℤ) (_ho : ¬(hFrac dt < 8)) (hc : ¬(17 ≤ hFrac dt)) :
    ∃ a : ℤ, 1 ≤ a ∧ a ≤ 61200 - secOfDay dt ∧
      ((if 8 ≤ hFrac dt ∧ hFrac dt < 12 then (12:ℚ) else 17) - hFrac dt) = (a : ℚ) / 3600 := by
  have hms0 := msOfDay_nonneg dt
  have hms1 := msOfDay_lt dt
  by_cases hseg : 8 ≤ hFrac dt ∧ hFrac dt < 12
  · have h12 := hFrac_lt_iff dt 12
    push_cast at h12
    have hms : msOfDay dt < 43200000 := h12.mp hseg.2
    refine ⟨43200 - secOfDay dt, ?_, ?_, ?_⟩
    · simp only [secOfDay]; omega
    · simp only [secOfDay]; omega
    · rw [if_pos hseg, hFrac_eq]
      push_cast
      field_simp
      norm_num
  · have h17 := hFrac_todQ_le dt 17
    have hms : msOfDay dt < 61200000 := by
      have := (hFrac_lt_iff dt 17).mp (not_le.mp hc)
      push_cast at this
      exact this
    refine ⟨61200 - secOfDay dt, ?_, ?_, ?_⟩
    · simp only [secOfDay]; omega
    · omega
    · rw [if_neg hseg, hFrac_eq]
      push_cast
      field_simp
      norm_num

theorem ceil_decrement (rem : ℚ) (a : ℤ) :
    ⌈(rem - (a : ℚ) / 3600) * 3600⌉ = ⌈rem * 3600⌉ - a := by
  have heq : (rem - (a : ℚ) / 3600) * 3600 = rem * 3600 - (a : ℚ) := by field_simp
  rw [heq, Int.ceil_sub_int]

/-- Totality of the hour-accumulation loop: the measure
`2⌈3600·remaining⌉ + (1 if in consuming position else 2)` bounds the number
of loop passes. -/
theorem bhLoop_total_aux (hol : Finset ℤ) :
    ∀ F : ℕ, ∀ (dt : ℤ) (rem : ℚ),
      2 * (⌈rem * 3600⌉).toNat +
        (if isWorkingDay dt hol = true ∧ ¬(hFrac dt < 8) ∧ ¬(12 ≤ hFrac dt ∧ hFrac dt < 13)
            ∧ ¬(17 ≤ hFrac dt) then 1 else 2) < F →
      (bhLoop hol (wFuel hol) F dt rem).isSome = true := by
  intro F
  induction F using Nat.strong_induction_on with
  | _ F ih =>
    intro dt rem hF
    by_cases h0 : rem ≤ 0
    · rw [bh_eval_exit hol _ F dt rem h0]; rfl
    · obtain ⟨F', rfl⟩ : ∃ F', F = F' + 1 := ⟨F - 1, by omega⟩
      have hrem : 0 < rem := not_le.mp h0
      have hceil1 : 1 ≤ ⌈rem * 3600⌉ := Int.ceil_pos.mpr (by positivity)
      -- a state anchored at 08:00 or 13:00 of a working day has flag 1,
      -- so recursing there costs only the flag decrement
      have hstep : ∀ d2 : ℤ, isWorkingDay d2 hol = true →
          (hFrac d2 = 8 ∨ hFrac d2 = 13) →
          2 * (⌈rem * 3600⌉).toNat +
            (if isWorkingDay d2 hol = true ∧ ¬(hFrac d2 < 8) ∧ ¬(12 ≤ hFrac d2 ∧ hFrac d2 < 13)
                ∧ ¬(17 ≤ hFrac d2) then 1 else 2) ≤
          2 * (⌈rem * 3600⌉).toNat + 1 := by
        intro d2 hw2 hf2
        rcases hf2 with hf2 | hf2 <;>
          rw [if_pos ⟨hw2, by rw [hf2]; norm_num, by rw [hf2]; norm_num, by rw [hf2]; norm_num⟩]
      by_cases hw : isWorkingDay dt hol = true
      · by_cases hho : hFrac dt < 8
        · -- before open: snap to 08:00 and recurse
          have hfl : ¬(isWorkingDay dt hol = true ∧ ¬(hFrac dt < 8) ∧
              ¬(12 ≤ hFrac dt ∧ hFrac dt < 13) ∧ ¬(17 ≤ hFrac dt)) := by
            intro hcontra; exact hcontra.2.1 hho
          rw [if_neg hfl] at hF
          rw [bh_eval_beforeOpen hol _ F' dt rem h0 hw hho]
          have hw' : isWorkingDay (setTime dt 28800000) hol = true := by
            rw [isWorkingDay_eq, dayOf_setTime _ _ (by norm_num) (by norm_num)]
            rw [isWorkingDay_eq] at hw
            exact hw
          have hf' : hFrac (setTime dt 28800000) = 8 :=
            hFrac_of_ms8 _ (msOfDay_setTime _ _ (by norm_num) (by norm_num))
          exact ih F' (by omega) _ rem (by
            have := hstep (setTime dt 28800000) hw' (Or.inl hf')
            omega)
        · by_cases hhl : 12 ≤ hFrac dt ∧ hFrac dt < 13
          · -- lunch: snap to 13:00
            have hfl : ¬(isWorkingDay dt hol = true ∧ ¬(hFrac dt < 8) ∧
                ¬(12 ≤ hFrac dt ∧ hFrac dt < 13) ∧ ¬(17 ≤ hFrac dt)) := by
              intro hcontra; exact hcontra.2.2.1 hhl
            rw [if_neg hfl] at hF
            rw [bh_eval_lunch hol _ F' dt rem h0 hw hho hhl]
            have hw' : isWorkingDay (setTime dt 46800000) hol = true := by
              rw [isWorkingDay_eq, dayOf_setTime _ _ (by norm_num) (by norm_num)]
              rw [isWorkingDay_eq] at hw
              exact hw
            have hf' : hFrac (setTime dt 46800000) = 13 :=
              hFrac_of_ms13 _ (msOfDay_setTime _ _ (by norm_num) (by norm_num))
            exact ih F' (by omega) _ rem (by
              have := hstep (setTime dt 46800000) hw' (Or.inr hf')
              omega)
          · by_cases hhc : 17 ≤ hFrac dt
            · -- after close: next working day at 08:00
              have hfl : ¬(isWorkingDay dt hol = true ∧ ¬(hFrac dt < 8) ∧
                  ¬(12 ≤ hFrac dt ∧ hFrac dt < 13) ∧ ¬(17 ≤ hFrac dt)) := by
                intro hcontra; exact hcontra.2.2.2 hhc
              rw [if_neg hfl] at hF
              rw [bh_eval_close hol _ F' dt rem h0 hw hho hhl hhc]
              obtain ⟨d2, hd2⟩ := walkFwd_total hol (wFuel hol) (dt + 86400000) (by simp [wFuel])
              obtain ⟨hd2w, _, _⟩ := walkFwd_sound hol _ _ _ hd2
              rw [hd2, Option.some_bind]
              have hw' : isWorkingDay (setTime d2 28800000) hol = true := by
                rw [isWorkingDay_eq, dayOf_setTime _ _ (by norm_num) (by norm_num)]
                rw [isWorkingDay_eq] at hd2w
                exact hd2w
              have hf' : hFrac (setTime d2 28800000) = 8 :=
                hFrac_of_ms8 _ (msOfDay_setTime _ _ (by norm_num) (by norm_num))
              exact ih F' (by omega) _ rem (by
                have := hstep (setTime d2 28800000) hw' (Or.inl hf')
                omega)
            · -- consume
              have hfl : isWorkingDay dt hol = true ∧ ¬(hFrac dt < 8) ∧
                  ¬(12 ≤ hFrac dt ∧ hFrac dt < 13) ∧ ¬(17 ≤ hFrac dt) := ⟨hw, hho, hhl, hhc⟩
              rw [if_pos hfl] at hF
              rw [bh_eval_consume hol _ F' dt rem h0 hw hho hhl hhc]
              obtain ⟨a, ha1, ha2, hav⟩ := consume_available dt hho hhc
              set sg : ℚ := (if 8 ≤ hFrac dt ∧ hFrac dt < 12 then (12:ℚ) else 17) with hsg
              set tk : ℚ := min (sg - hFrac dt) rem with htkdef
              by_cases h0' : rem - tk ≤ 0
              · rw [bh_eval_exit hol _ F' _ _ h0']; rfl
              · have htk : tk = (a : ℚ) / 3600 := by
                  rcases le_total (sg - hFrac dt) rem with hle | hle
                  · rw [htkdef, min_eq_left hle, hav]
                  · exfalso
                    apply h0'
                    rw [htkdef, min_eq_right hle]
                    linarith
                have hceil : ⌈(rem - tk) * 3600⌉ = ⌈rem * 3600⌉ - a := by
                  rw [htk]
                  exact ceil_decrement rem a
                apply ih F' (by omega)
                generalize dt + jsRound (tk * 60) * 60000 = dtn
                rw [hceil]
                split <;> omega
      · -- not a working day: next working day at 08:00
        have hfl : ¬(isWorkingDay dt hol = true ∧ ¬(hFrac dt < 8) ∧
            ¬(12 ≤ hFrac dt ∧ hFrac dt < 13) ∧ ¬(17 ≤ hFrac dt)) := by
          intro hcontra; exact hw hcontra.1
        rw [if_neg hfl] at hF
        have hwf : isWorkingDay dt hol = false := by simpa using hw
        rw [bh_eval_notWorking hol _ F' dt rem h0 hwf]
        obtain ⟨d2, hd2⟩ := walkFwd_total hol (wFuel hol) (setTime (dt + 86400000) 28800000) (by simp [wFuel])
        obtain ⟨hd2w, _, _⟩ := walkFwd_sound hol _ _ _ hd2
        rw [hd2, Option.some_bind]
        have hw' : isWorkingDay (setTime d2 28800000) hol = true := by
          rw [isWorkingDay_eq, dayOf_setTime _ _ (by norm_num) (by norm_num)]
          rw [isWorkingDay_eq] at hd2w
          exact hd2w
        have hf' : hFrac (setTime d2 28800000) = 8 :=
          hFrac_of_ms8 _ (msOfDay_setTime _ _ (by norm_num) (by norm_num))
        exact ih F' (by omega) _ rem (by
          have := hstep (setTime d2 28800000) hw' (Or.inl hf')
          omega)

/-- The exact-rational idealization of the accumulation loop is total: with
`remaining` as a true rational, every pass strictly decreases the measure and
the loop returns at its canonical fuel.  This is a statement about the
idealization only — the source subtracts in binary64, where the decrement of
`remaining` can be absorbed and the loop then never exits (see C9). -/
theorem addBusinessHours_total_ideal (start : ℤ) (hours : ℚ) (hol : Finset ℤ) :
    (addBusinessHours start hours hol).isSome = true := by
  rw [addBusinessHours]
  by_cases hh : hours ≤ 0
  · rw [if_pos hh]; rfl
  · rw [if_neg hh]
    apply bhLoop_total_aux hol (bhFuel hours) start hours
    have h2 : (if isWorkingDay start hol = true ∧ ¬(hFrac start < 8)
        ∧ ¬(12 ≤ hFrac start ∧ hFrac start < 13) ∧ ¬(17 ≤ hFrac start) then 1 else 2) ≤ 2 := by
      split <;> omega
    simp only [bhFuel]
    omega

/-- C9 (code bug): one consuming pass of the loop at Monday 2025-10-06
11:59:59 Bogota (instant `1759751999000`, one second before the lunch
cutoff) leaves the clock unchanged — `minutesToAdd = Math.round((1/3600)·60)
= 0` — and changes the loop state only by the exact subtraction
`remaining - 1/3600`.  The source performs that subtraction on IEEE-754
binary64 doubles, where subtracting `1/3600 ≈ 0.000278` is absorbed (a
no-op) whenever `remaining ≥ 2^42` — e.g. `hours = 5·10^12`, an integer the
HTTP boundary accepts — so the real loop repeats this pass with a completely
unchanged state and never terminates.  The exact-rational idealization
(`addBusinessHours_total_ideal`) is total, so the non-termination is caused
purely by the float absorption the claim's "every hours value" ranges over. -/
theorem c9_addBusinessHours_float_absorption_step (f : ℕ) (rem : ℚ)
    (h : 1/3600 ≤ rem) :
    bhLoop ∅ (wFuel ∅) (f + 1) 1759751999000 rem
      = bhLoop ∅ (wFuel ∅) f 1759751999000 (rem - 1/3600) := by
  have h0 : ¬(rem ≤ 0) := by
    have hpos : (0:ℚ) < 1/3600 := by norm_num
    intro hc
    linarith
  have hfr : hFrac 1759751999000 = 43199/3600 := by
    rw [hFrac_eq, show secOfDay 1759751999000 = 43199 from by decide]
    norm_num
  rw [bh_eval_consume ∅ (wFuel ∅) f _ rem h0 (by decide)
    (by rw [hfr]; norm_num) (by rw [hfr]; norm_num) (by rw [hfr]; norm_num)]
  rw [hfr]
  rw [show (if (8:ℚ) ≤ 43199/3600 ∧ (43199/3600:ℚ) < 12 then (12:ℚ) else 17) = 12 from by
    norm_num]
  rw [show (12:ℚ) - 43199/3600 = 1/3600 from by norm_num]
  rw [min_eq_left h]
  rw [show jsRound ((1:ℚ)/3600 * 60) = 0 from by rw [jsRound]; norm_num]
  rw [show (1759751999000:ℤ) + 0 * 60000 = 1759751999000 from by norm_num]

theorem c9_step_witness :
    bhLoop ∅ (wFuel ∅) (5 + 1) 1759751999000 1
      = bhLoop ∅ (wFuel ∅) 5 1759751999000 (1 - 1/3600) :=
  c9_addBusinessHours_float_absorption_step 5 1 (by norm_num)

/-- Every exit of the hour-accumulation loop with positive remaining hours
happens right after an in-segment consuming pass, whose clock advance stays
inside the same (working) day. -/
theorem bhLoop_working (hol : Finset ℤ) :
    ∀ (F : ℕ) (dt : ℤ) (rem : ℚ) (r : ℤ), 0 < rem →
      bhLoop hol (wFuel hol) F dt rem = some r → isWorkingDay r hol = true := by
  intro F
  induction F with
  | zero =>
    intro dt rem r hrem h
    rw [bhLoop, if_neg (not_le.mpr hrem)] at h
    exact absurd h (by simp)
  | succ F ih =>
    intro dt rem r hrem h
    have h0 : ¬(rem ≤ 0) := not_le.mpr hrem
    by_cases hw : isWorkingDay dt hol = true
    · by_cases hho : hFrac dt < 8
      · rw [bh_eval_beforeOpen hol _ F dt rem h0 hw hho] at h
        exact ih _ rem r hrem h
      · by_cases hhl : 12 ≤ hFrac dt ∧ hFrac dt < 13
        · rw [bh_eval_lunch hol _ F dt rem h0 hw hho hhl] at h
          exact ih _ rem r hrem h
        · by_cases hhc : 17 ≤ hFrac dt
          · rw [bh_eval_close hol _ F dt rem h0 hw hho hhl hhc] at h
            obtain ⟨d2, hd2, hrest⟩ := Option.bind_eq_some.mp h
            exact ih _ rem r hrem hrest
          · rw [bh_eval_consume hol _ F dt rem h0 hw hho hhl hhc] at h
            obtain ⟨a, ha1, ha2, hav⟩ := consume_available dt hho hhc
            set sg : ℚ := (if 8 ≤ hFrac dt ∧ hFrac dt < 12 then (12:ℚ) else 17) with hsg
            set tk : ℚ := min (sg - hFrac dt) rem with htkdef
            by_cases hrem' : 0 < rem - tk
            · exact ih _ (rem - tk) r hrem' h
            · -- the loop exits at the next pass: r is the consume result,
              -- which lies in the same working day as dt
              rw [bh_eval_exit hol _ F _ _ (not_lt.mp hrem'), Option.some_inj] at h
              subst h
              -- bound the clock advance
              have htknn : 0 ≤ tk := by
                have hav' : (0:ℚ) ≤ sg - hFrac dt := by
                  rw [hav]
                  positivity
                exact le_min hav' (le_of_lt hrem)
              have htkle : tk ≤ (a : ℚ) / 3600 := by
                rw [htkdef]
                rw [hav] at *
                exact min_le_left _ _
              have hm0 : 0 ≤ jsRound (tk * 60) := jsRound_nonneg _ (by positivity)
              have hmle : (jsRound (tk * 60) : ℚ) ≤ (a : ℚ) / 60 + 1/2 := by
                calc (jsRound (tk * 60) : ℚ) ≤ tk * 60 + 1/2 := jsRound_le _
                _ ≤ (a : ℚ) / 3600 * 60 + 1/2 := by linarith
                _ = (a : ℚ) / 60 + 1/2 := by ring
              have hmle' : 60 * jsRound (tk * 60) ≤ a + 30 := by
                have : (60 * jsRound (tk * 60) : ℚ) ≤ (a : ℚ) + 30 := by linarith
                exact_mod_cast this
              have hms0 := msOfDay_nonneg dt
              have hms1 := msOfDay_lt dt
              have hsec : secOfDay dt = msOfDay dt / 1000 := rfl
              have hin : 0 ≤ msOfDay dt + jsRound (tk * 60) * 60000 ∧
                  msOfDay dt + jsRound (tk * 60) * 60000 < 86400000 := by
                constructor
                · omega
                · -- 60000 * m ≤ 1000*a + 30000 and a ≤ 61200 - sec
                  omega
              obtain ⟨hd, _⟩ := shift_in_day dt (jsRound (tk * 60) * 60000) hin.1 hin.2
              rw [isWorkingDay_eq, hd]
              rw [isWorkingDay_eq] at hw
              exact hw
    · have hwf : isWorkingDay dt hol = false := by simpa using hw
      rw [bh_eval_notWorking hol _ F dt rem h0 hwf] at h
      obtain ⟨d2, hd2, hrest⟩ := Option.bind_eq_some.mp h
      exact ih _ rem r hrem hrest

/-- C10: for positive hours, the instant returned by `addBusinessHours` falls
on a working day (neither Saturday, Sunday, nor a holiday). -/
theorem c10_addBusinessHours_lands_on_working_day (start : ℤ) (hours : ℚ) (hol : Finset ℤ)
    (r : ℤ) (hh : 0 < hours) (h : addBusinessHours start hours hol = some r) :
    isWorkingDay r hol = true := by
  rw [addBusinessHours, if_neg (not_le.mpr hh)] at h
  exact bhLoop_working hol (bhFuel hours) start hours r hh h

/-- Concrete run of the hour accumulator: Monday 2025-10-06 09:00 Bogota plus
one business hour is Monday 10:00 (rational arithmetic does not reduce in the
kernel, so this is proved through the branch-evaluation lemmas). -/
theorem addBusinessHours_concrete_one :
    addBusinessHours (ymdToDay 2025 10 6 * 86400000 + 32400000) 1 ∅
      = some (ymdToDay 2025 10 6 * 86400000 + 36000000) := by
  have ht0 : ymdToDay 2025 10 6 * 86400000 + 32400000 = 1759741200000 := by decide
  have ht1 : ymdToDay 2025 10 6 * 86400000 + 36000000 = 1759744800000 := by decide
  rw [ht0, ht1, addBusinessHours, if_neg (by norm_num)]
  have hbf : bhFuel 1 = 7202 + 1 := by simp only [bhFuel]; norm_num; rfl
  rw [hbf]
  have hfr : hFrac 1759741200000 = 9 := by
    rw [hFrac_eq, show secOfDay 1759741200000 = 32400 from by decide]
    norm_num
  rw [bh_eval_consume ∅ (wFuel ∅) 7202 1759741200000 1 (by norm_num) (by decide)
    (by rw [hfr]; norm_num) (by rw [hfr]; norm_num) (by rw [hfr]; norm_num)]
  rw [hfr]
  rw [show (if (8:ℚ) ≤ 9 ∧ (9:ℚ) < 12 then (12:ℚ) else 17) = 12 from by norm_num]
  rw [show min ((12:ℚ) - 9) 1 = 1 from by norm_num]
  rw [show jsRound ((1:ℚ) * 60) = 60 from by rw [jsRound]; norm_num]
  rw [bh_eval_exit ∅ (wFuel ∅) 7202 _ _ (by norm_num)]
  norm_num

theorem c10_witness : isWorkingDay (ymdToDay 2025 10 6 * 86400000 + 36000000) ∅ = true :=
  c10_addBusinessHours_lands_on_working_day (ymdToDay 2025 10 6 * 86400000 + 32400000) 1 ∅
    (ymdToDay 2025 10 6 * 86400000 + 36000000) (by norm_num) addBusinessHours_concrete_one

/-! ### The day accumulator -/

theorem addBusinessDaysLoop_sound (hol : Finset ℤ) :
    ∀ (n : ℕ) (dt : ℤ), 1 ≤ n →
      ∃ r, addBusinessDaysLoop hol (wFuel hol) n dt = some r ∧ isWorkingDay r hol = true := by
  intro n
  induction n with
  | zero => intro dt h; exact absurd h (by omega)
  | succ n ih =>
    intro dt _
    obtain ⟨p, hp⟩ := walkFwd_total hol (wFuel hol) (dt + 86400000) (by simp [wFuel])
    have hpw := (walkFwd_sound hol _ _ _ hp).1
    match n, ih with
    | 0, _ =>
      refine ⟨p, ?_, hpw⟩
      simp only [addBusinessDaysLoop, hp, Option.some_bind]
    | m + 1, ih =>
      obtain ⟨r, hr, hrw⟩ := ih p (by omega)
      refine ⟨r, ?_, hrw⟩
      simp only [addBusinessDaysLoop, hp, Option.some_bind]
      exact hr

/-- C1 (amended to `days ≥ 1`): `addBusinessDays` always produces a result,
and for at least one requested day that result's date is neither a Saturday,
nor a Sunday, nor a holiday. -/
theorem c1_addBusinessDays_lands_on_working_day (start : ℤ) (days : ℤ) (hol : Finset ℤ)
    (hd : 1 ≤ days) :
    ∃ r, addBusinessDays start days hol = some r ∧ isWorkingDay r hol = true := by
  rw [addBusinessDays, if_neg (by omega)]
  exact addBusinessDaysLoop_sound hol days.toNat start (by omega)

theorem c1_witness :
    ∃ r, addBusinessDays (ymdToDay 2025 10 6 * 86400000 + 32400000) 1 ∅ = some r ∧
      isWorkingDay r ∅ = true :=
  c1_addBusinessDays_lands_on_working_day (ymdToDay 2025 10 6 * 86400000 + 32400000) 1 ∅
    (by norm_num)

/-- C1 counterexample: with `days = 0` (which the claim's range `days ≥ 0`
includes), `addBusinessDays` is the identity, so a Saturday start is returned
unchanged — on a weekend. -/
theorem c1_counterexample_days_zero :
    addBusinessDays (ymdToDay 2025 10 4 * 86400000 + 43200000) 0 ∅
        = some (ymdToDay 2025 10 4 * 86400000 + 43200000) ∧
      isWorkingDay (ymdToDay 2025 10 4 * 86400000 + 43200000) ∅ = false ∧
      weekday (ymdToDay 2025 10 4 * 86400000 + 43200000) = 6 := by
  refine ⟨rfl, by decide, by decide⟩

/-! ### The rounding stall of the hour accumulator -/

/-- At Monday 2025-10-06 11:59:31 Bogota time (instant `1759751971000`,
29 seconds before the lunch segment end) every consuming pass takes
`min (29/3600) remaining` hours but advances the clock by
`Math.round(take*60) = 0` minutes, so the loop drains `remaining` without
ever moving: it returns the start instant unchanged. -/
theorem bhLoop_stall : ∀ f : ℕ, ∀ rem : ℚ, 2 * (⌈rem * 3600⌉).toNat + 1 < f →
    bhLoop ∅ (wFuel ∅) f 1759751971000 rem = some 1759751971000 := by
  intro f
  induction f using Nat.strong_induction_on with
  | _ f ih =>
    intro rem hf
    by_cases h0 : rem ≤ 0
    · exact bh_eval_exit ∅ _ f _ _ h0
    · obtain ⟨f', rfl⟩ : ∃ f', f = f' + 1 := ⟨f - 1, by omega⟩
      have hrem : 0 < rem := not_le.mp h0
      have hfr : hFrac 1759751971000 = 43171/3600 := by
        rw [hFrac_eq, show secOfDay 1759751971000 = 43171 from by decide]
        norm_num
      rw [bh_eval_consume ∅ (wFuel ∅) f' _ rem h0 (by decide)
        (by rw [hfr]; norm_num) (by rw [hfr]; norm_num) (by rw [hfr]; norm_num)]
      rw [hfr]
      rw [show (if (8:ℚ) ≤ 43171/3600 ∧ (43171/3600:ℚ) < 12 then (12:ℚ) else 17) = 12 from by
        norm_num]
      rw [show (12:ℚ) - 43171/3600 = 29/3600 from by norm_num]
      have htk0 : 0 ≤ min ((29:ℚ)/3600) rem := le_min (by norm_num) (le_of_lt hrem)
      have htk1 : min ((29:ℚ)/3600) rem ≤ 29/3600 := min_le_left _ _
      have hm : jsRound (min ((29:ℚ)/3600) rem * 60) = 0 := by
        rw [jsRound]
        rw [Int.floor_eq_zero_iff]
        constructor
        · linarith
        · linarith
      rw [hm]
      rw [show (1759751971000:ℤ) + 0 * 60000 = 1759751971000 from by norm_num]
      by_cases hcase : rem ≤ 29/3600
      · rw [min_eq_right hcase]
        exact bh_eval_exit ∅ _ f' _ _ (by linarith)
      · rw [min_eq_left (le_of_lt (not_le.mp hcase))]
        apply ih f' (by omega)
        have hceil : ⌈(rem - 29/3600) * 3600⌉ = ⌈rem * 3600⌉ - 29 := by
          have h := ceil_decrement rem 29
          push_cast at h
          exact h
        have hc1 : 1 ≤ ⌈rem * 3600⌉ := Int.ceil_pos.mpr (by positivity)
        rw [hceil]
        omega

/-- C4 (code bug): with start Monday 2025-10-06 11:59:31 Bogota
(= 2025-10-06T16:59:31Z) and `hours = 1`, `addBusinessHours` returns its
start unchanged — zero business minutes elapse although `round(1*60) = 60`
were requested.  The cause: `remaining` is decremented by the exact fraction
`take` while the clock only advances by `Math.round(take*60)` minutes, which
is 0 whenever under half a minute remains to the segment end. -/
theorem c4_addBusinessHours_stalls_losing_requested_hour :
    addBusinessHours (ymdToDay 2025 10 6 * 86400000 + 43171000) 1 ∅
      = some (ymdToDay 2025 10 6 * 86400000 + 43171000) := by
  have ht : ymdToDay 2025 10 6 * 86400000 + 43171000 = 1759751971000 := by decide
  rw [ht, addBusinessHours, if_neg (by norm_num)]
  apply bhLoop_stall
  have h1 : (⌈(1:ℚ) * 3600⌉).toNat = 3600 := by
    rw [show ⌈(1:ℚ) * 3600⌉ = 3600 from by norm_num]
    rfl
  simp only [bhFuel, h1]
  omega

/-! ### Resolution of the start instant in `computeBusinessDate` -/

theorem computeBusinessDate_none (parse : String → Option ℤ) (nowUtc : ℤ) (days : ℤ)
    (hours : ℚ) (hol : Finset ℤ) :
    computeBusinessDate parse nowUtc none days hours hol
      = cbdRun (nowUtc - utcOffsetMs) days hours hol := rfl

theorem computeBusinessDate_empty (parse : String → Option ℤ) (nowUtc : ℤ) (days : ℤ)
    (hours : ℚ) (hol : Finset ℤ) :
    computeBusinessDate parse nowUtc (some "") days hours hol
      = cbdRun (nowUtc - utcOffsetMs) days hours hol := rfl

theorem computeBusinessDate_parsed (parse : String → Option ℤ) (nowUtc : ℤ) (s : String)
    (u : ℤ) (days : ℤ) (hours : ℚ) (hol : Finset ℤ) (hs : ¬(s = "")) (hp : parse s = some u) :
    computeBusinessDate parse nowUtc (some s) days hours hol
      = cbdRun (u - utcOffsetMs) days hours hol := by
  simp only [computeBusinessDate, if_neg hs, hp]

theorem computeBusinessDate_unparsable (parse : String → Option ℤ) (nowUtc : ℤ) (s : String)
    (days : ℤ) (hours : ℚ) (hol : Finset ℤ) (hs : ¬(s = "")) (hp : parse s = none) :
    computeBusinessDate parse nowUtc (some s) days hours hol
      = some CbdOutcome.invalidDate := by
  simp only [computeBusinessDate, if_neg hs, hp]

/-! ### The spec's end-to-end Friday-17:00 example -/

/-- C5: for every holiday set containing none of 2025-10-03 … 2025-10-06 and
any parser resolving the start string, `computeBusinessDate` with start
`2025-10-03T22:00:00Z` (Friday 17:00 Bogota), `days = 0`, `hours = 1`
returns `2025-10-06T14:00:00Z` (Monday 09:00 Bogota). -/
theorem c5_computeBusinessDate_friday_example (hol : Finset ℤ) (parse : String → Option ℤ)
    (nowUtc : ℤ)
    (h3 : ymdToDay 2025 10 3 ∉ hol) (_h4 : ymdToDay 2025 10 4 ∉ hol)
    (_h5 : ymdToDay 2025 10 5 ∉ hol) (h6 : ymdToDay 2025 10 6 ∉ hol)
    (hp : parse "2025-10-03T22:00:00Z" = some (utcMs 2025 10 3 22 0 0)) :
    computeBusinessDate parse nowUtc (some "2025-10-03T22:00:00Z") 0 1 hol
      = some (CbdOutcome.ok (utcMs 2025 10 6 14 0 0)) := by
  have h3' : (20364:ℤ) ∉ hol := by
    rwa [show ymdToDay 2025 10 3 = (20364:ℤ) from by decide] at h3
  have h6' : (20367:ℤ) ∉ hol := by
    rwa [show ymdToDay 2025 10 6 = (20367:ℤ) from by decide] at h6
  rw [computeBusinessDate_parsed parse nowUtc _ _ 0 1 hol (by decide) hp]
  rw [show utcMs 2025 10 3 22 0 0 = (1759528800000:ℤ) from by decide]
  rw [show utcMs 2025 10 6 14 0 0 = (1759759200000:ℤ) from by decide]
  rw [show (1759528800000:ℤ) - utcOffsetMs = 1759510800000 from by decide]
  rw [cbdRun]
  -- normalization: Friday 17:00 is a working day at close, rule 3 applies
  have hwFri : isWorkingDay (1759510800000:ℤ) hol = true := by
    rw [isWorkingDay_eq, show dayOf (1759510800000:ℤ) = 20364 from by decide]
    exact businessDayB_true _ hol (by decide) (by decide) h3'
  have hfrFri : hFrac (1759510800000:ℤ) = 17 := by
    rw [hFrac_eq, show secOfDay (1759510800000:ℤ) = 61200 from by decide]
    norm_num
  rw [norm_eval_close _ hol hwFri (by rw [hfrFri]; norm_num) (by rw [hfrFri])]
  rw [show setTime (1759510800000:ℤ) 61200000 = 1759510800000 from
    setTime_eq_self _ _ (by decide)]
  rw [Option.some_bind]
  rw [if_neg (by norm_num : ¬((0:ℤ) < 0)), Option.some_bind, if_pos (by norm_num : (0:ℚ) < 1)]
  -- one business hour from Friday 17:00
  rw [addBusinessHours, if_neg (by norm_num)]
  rw [show bhFuel 1 = 7202 + 1 from by
    simp only [bhFuel, show ⌈(1:ℚ) * 3600⌉ = 3600 from by norm_num]
    rfl]
  rw [bh_eval_close hol (wFuel hol) 7202 _ 1 (by norm_num) hwFri
    (by rw [hfrFri]; norm_num) (by rw [hfrFri]; norm_num) (by rw [hfrFri])]
  rw [show (1759510800000:ℤ) + 86400000 = 1759597200000 from by norm_num]
  -- the walk skips Saturday 10-04 and Sunday 10-05, landing on Monday 10-06
  have hwalk0 : walkFwd hol (wFuel hol) 1759597200000
      = some (1759597200000 + ((2:ℕ):ℤ) * 86400000) := by
    apply walkFwd_reach hol 2 (wFuel hol) 1759597200000
    · simp only [wFuel]; omega
    · intro j hj
      interval_cases j
      · have harg : (1759597200000:ℤ) + ((0:ℕ):ℤ) * 86400000 = 1759597200000 := by norm_num
        rw [harg, isWorkingDay_eq, show dayOf (1759597200000:ℤ) = 20365 from by decide]
        exact businessDayB_of_weekend _ hol (Or.inl (by decide))
      · have harg : (1759597200000:ℤ) + ((1:ℕ):ℤ) * 86400000 = 1759683600000 := by norm_num
        rw [harg, isWorkingDay_eq, show dayOf (1759683600000:ℤ) = 20366 from by decide]
        exact businessDayB_of_weekend _ hol (Or.inr (by decide))
    · have harg : (1759597200000:ℤ) + ((2:ℕ):ℤ) * 86400000 = 1759770000000 := by norm_num
      rw [harg, isWorkingDay_eq, show dayOf (1759770000000:ℤ) = 20367 from by decide]
      exact businessDayB_true _ hol (by decide) (by decide) h6'
  have hwalk : walkFwd hol (wFuel hol) 1759597200000 = some 1759770000000 := by
    rw [hwalk0]
    norm_num
  rw [hwalk, Option.some_bind]
  rw [show setTime (1759770000000:ℤ) 28800000 = 1759737600000 from by decide]
  -- Monday 08:00: consume one hour inside the morning segment
  have hwMon : isWorkingDay (1759737600000:ℤ) hol = true := by
    rw [isWorkingDay_eq, show dayOf (1759737600000:ℤ) = 20367 from by decide]
    exact businessDayB_true _ hol (by decide) (by decide) h6'
  have hfrMon : hFrac (1759737600000:ℤ) = 8 := by
    rw [hFrac_eq, show secOfDay (1759737600000:ℤ) = 28800 from by decide]
    norm_num
  rw [show (7202:ℕ) = 7201 + 1 from rfl]
  rw [bh_eval_consume hol (wFuel hol) 7201 _ 1 (by norm_num) hwMon
    (by rw [hfrMon]; norm_num) (by rw [hfrMon]; norm_num) (by rw [hfrMon]; norm_num)]
  rw [hfrMon]
  rw [show (if (8:ℚ) ≤ 8 ∧ (8:ℚ) < 12 then (12:ℚ) else 17) = 12 from by norm_num]
  rw [show min ((12:ℚ) - 8) 1 = 1 from by norm_num]
  rw [show jsRound ((1:ℚ) * 60) = 60 from by rw [jsRound]; norm_num]
  rw [show (1759737600000:ℤ) + 60 * 60000 = 1759741200000 from by norm_num]
  rw [show (1:ℚ) - 1 = 0 from by norm_num]
  rw [bh_eval_exit hol (wFuel hol) 7201 _ _ (by norm_num)]
  rw [Option.map_some']
  rw [show (1759741200000:ℤ) + utcOffsetMs = 1759759200000 from by decide]

theorem c5_witness :
    computeBusinessDate
        (fun s => if s = "2025-10-03T22:00:00Z" then some (utcMs 2025 10 3 22 0 0) else none)
        0 (some "2025-10-03T22:00:00Z") 0 1 ∅
      = some (CbdOutcome.ok (utcMs 2025 10 6 14 0 0)) :=
  c5_computeBusinessDate_friday_example ∅ _ 0 (by decide) (by decide) (by decide) (by decide)
    (by simp)

/-! ### InvalidDate behavior of the orchestrator -/

theorem cbdRun_ne_invalid (startCol days : ℤ) (hours : ℚ) (hol : Finset ℤ) :
    cbdRun startCol days hours hol ≠ some CbdOutcome.invalidDate := by
  rw [cbdRun]
  intro h
  obtain ⟨x, _, hinv⟩ := Option.map_eq_some'.mp h
  exact CbdOutcome.noConfusion hinv

/-- C6 (amended): `computeBusinessDate` raises `InvalidDate` exactly when
`startUtc` is given, non-empty, and unparseable; when `startUtc` is absent
it computes from the current time and never raises `InvalidDate`. -/
theorem c6_invalidDate_iff (parse : String → Option ℤ) (nowUtc : ℤ)
    (startUtcIso : Option String) (days : ℤ) (hours : ℚ) (hol : Finset ℤ) :
    (computeBusinessDate parse nowUtc startUtcIso days hours hol = some CbdOutcome.invalidDate
      ↔ ∃ s, startUtcIso = some s ∧ ¬(s = "") ∧ parse s = none) ∧
    computeBusinessDate parse nowUtc none days hours hol
      = cbdRun (nowUtc - utcOffsetMs) days hours hol := by
  refine ⟨⟨?_, ?_⟩, rfl⟩
  · intro h
    cases startUtcIso with
    | none =>
      rw [computeBusinessDate_none] at h
      exact absurd h (cbdRun_ne_invalid _ _ _ _)
    | some s =>
      by_cases hse : s = ""
      · subst hse
        rw [computeBusinessDate_empty] at h
        exact absurd h (cbdRun_ne_invalid _ _ _ _)
      · cases hp : parse s with
        | none => exact ⟨s, rfl, hse, hp⟩
        | some u =>
          rw [computeBusinessDate_parsed parse nowUtc s u days hours hol hse hp] at h
          exact absurd h (cbdRun_ne_invalid _ _ _ _)
  · rintro ⟨s, rfl, hse, hp⟩
    exact computeBusinessDate_unparsable parse nowUtc s days hours hol hse hp

theorem c6_witness :
    computeBusinessDate (fun _ : String => (none : Option ℤ)) 0 (some "not-a-date") 0 0 ∅
      = some CbdOutcome.invalidDate :=
  (c6_invalidDate_iff (fun _ => none) 0 (some "not-a-date") 0 0 ∅).1.mpr
    ⟨"not-a-date", rfl, by decide, rfl⟩

/-- C6 counterexample: the empty string is given and unparseable, yet the
JavaScript truthiness test `if (startUtcIso)` routes it to the "now" branch,
so no `InvalidDate` is raised — against the claim's "iff". -/
theorem c6_counterexample_empty_string :
    (fun _ : String => (none : Option ℤ)) "" = none ∧
      computeBusinessDate (fun _ : String => (none : Option ℤ)) 0 (some "") 0 0 ∅
        ≠ some CbdOutcome.invalidDate := by
  refine ⟨rfl, ?_⟩
  rw [computeBusinessDate_empty]
  exact cbdRun_ne_invalid _ _ _ _

/-! ### The holiday provider's cache contract -/

/-- C7: within the TTL the cached set is returned with the cache unchanged and
the transport never consulted; past the TTL a failing transport propagates its
status with the cache left unchanged, and a successful transport's parsed set
(even when empty) is stored stamped `now` and returned. -/
theorem c7_fetchHolidays_cache_contract (cache : Option HolidayCache) (now : ℤ)
    (tr : Transport) :
    (∀ c, cache = some c → now - c.ts < HOLIDAY_CACHE_TTL_MS →
        fetchHolidays cache now tr = (Except.ok c.holidays, some c)) ∧
    ((∀ c, cache = some c → ¬(now - c.ts < HOLIDAY_CACHE_TTL_MS)) →
      (∀ status, tr = Transport.fail status →
          fetchHolidays cache now tr = (Except.error status, cache)) ∧
      (∀ j, tr = Transport.ok j →
          fetchHolidays cache now tr
            = (Except.ok (parseHolidaysJson j), some ⟨now, parseHolidaysJson j⟩))) := by
  constructor
  · rintro c rfl hfresh
    simp only [fetchHolidays, if_pos hfresh]
  · intro hstale
    constructor
    · rintro status rfl
      cases cache with
      | none => simp only [fetchHolidays, fetchMiss]
      | some c => simp only [fetchHolidays, if_neg (hstale c rfl), fetchMiss]
    · rintro j rfl
      cases cache with
      | none => simp only [fetchHolidays, fetchMiss]
      | some c => simp only [fetchHolidays, if_neg (hstale c rfl), fetchMiss]

theorem c7_witness :
    fetchHolidays (some ⟨0, {"2025-01-01"}⟩) 10 (Transport.fail 503)
        = (Except.ok {"2025-01-01"}, some ⟨0, {"2025-01-01"}⟩) ∧
      fetchHolidays (some ⟨0, {"2025-01-01"}⟩) 99999999999 (Transport.fail 503)
        = (Except.error 503, some ⟨0, {"2025-01-01"}⟩) ∧
      fetchHolidays none 5 (Transport.ok (Json.arr [Json.str "2025-12-25T00:00:00"]))
        = (Except.ok {"2025-12-25"}, some ⟨5, {"2025-12-25"}⟩) := by
  refine ⟨?_, ?_, ?_⟩
  · exact (c7_fetchHolidays_cache_contract (some ⟨0, {"2025-01-01"}⟩) 10 (Transport.fail 503)).1
      ⟨0, {"2025-01-01"}⟩ rfl (by norm_num [HOLIDAY_CACHE_TTL_MS])
  · refine ((c7_fetchHolidays_cache_contract (some ⟨0, {"2025-01-01"}⟩) 99999999999
      (Transport.fail 503)).2 ?_).1 503 rfl
    rintro c hc hlt
    cases hc
    norm_num [HOLIDAY_CACHE_TTL_MS] at hlt
  · have h := ((c7_fetchHolidays_cache_contract none 5
      (Transport.ok (Json.arr [Json.str "2025-12-25T00:00:00"]))).2
      (fun c hc => Option.noConfusion hc)).2 _ rfl
    rw [h]
    rw [show parseHolidaysJson (Json.arr [Json.str "2025-12-25T00:00:00"])
      = {"2025-12-25"} from by decide]

theorem walkFwd_eq_some_of_working (hol : Finset ℤ) (f : ℕ) (dt : ℤ)
    (h : isWorkingDay dt hol = true) : walkFwd hol f dt = some dt := by
  cases f <;> simp [walkFwd, h]

/-- C8 (code bug): an input carrying a fractional-second component survives
the whole pipeline — normalization leaves an in-segment instant untouched and
the day accumulator preserves the time-of-day verbatim — so the final UTC
instant has a non-zero millisecond component, which Luxon's
`toISO({suppressMilliseconds:true})` then serializes WITH fractional seconds
(`2025-10-07T14:00:00.500Z`), not at second precision. -/
theorem c8_fractional_seconds_survive :
    computeBusinessDate
        (fun s => if s = "2025-10-06T14:00:00.500Z" then some (utcMs 2025 10 6 14 0 0 + 500)
          else none)
        0 (some "2025-10-06T14:00:00.500Z") 1 0 ∅
      = some (CbdOutcome.ok (utcMs 2025 10 7 14 0 0 + 500)) ∧
    isoSecondPrecision (utcMs 2025 10 7 14 0 0 + 500) = false := by
  constructor
  · rw [computeBusinessDate_parsed _ 0 _ (utcMs 2025 10 6 14 0 0 + 500) 1 0 ∅ (by decide) (by simp)]
    rw [show utcMs 2025 10 6 14 0 0 + 500 = (1759759200500:ℤ) from by decide]
    rw [show utcMs 2025 10 7 14 0 0 + 500 = (1759845600500:ℤ) from by decide]
    rw [show (1759759200500:ℤ) - utcOffsetMs = 1759741200500 from by decide]
    rw [cbdRun]
    have hfr : hFrac (1759741200500:ℤ) = 9 := by
      rw [hFrac_eq, show secOfDay (1759741200500:ℤ) = 32400 from by decide]
      norm_num
    rw [norm_eval_inSegment _ ∅ (by decide) (by rw [hfr]; norm_num) (by rw [hfr]; norm_num)
      (by rw [hfr]; norm_num)]
    rw [Option.some_bind, if_pos (by norm_num : (0:ℤ) < 1)]
    rw [addBusinessDays, if_neg (by norm_num : ¬((1:ℤ) ≤ 0))]
    rw [show (1:ℤ).toNat = 0 + 1 from rfl]
    simp only [addBusinessDaysLoop]
    rw [show (1759741200500:ℤ) + 86400000 = 1759827600500 from by norm_num]
    rw [walkFwd_eq_some_of_working ∅ _ _ (by decide), Option.some_bind, Option.some_bind]
    rw [if_neg (by norm_num : ¬((0:ℚ) < 0))]
    rw [Option.map_some']
    rw [show (1759827600500:ℤ) + utcOffsetMs = 1759845600500 from by decide]
  · decide
